import Mathlib

/-!
Verification of the raft-match spot-matching service against its
natural-language specification.

The Rust sources are shallowly embedded:
* `rust_decimal::Decimal` values (exact fixed-point decimals) are modelled
  as rationals `ℚ`; decimal comparison and addition/subtraction are exact,
  which the rational model reproduces (mantissa overflow is not modelled).
* `BTreeMap` / `HashMap` are modelled as association lists.  Only the
  observations the embedded code performs (lookup, insert, remove,
  minimum/maximum key) are used, and minimum/maximum are computed over the
  key set, so the list order of the association list is irrelevant to them.
* Wall-clock reads (`SystemTime::now()`) and random UUIDs
  (`Uuid::new_v4()`) are nondeterministic inputs of the process; they are
  modelled by an explicit environment `Env` (a clock value and a stream of
  uuid strings) threaded through the embedded functions.
* Rust panics (`unwrap()` on `None`, `unimplemented!()`) are modelled by
  returning `none` from an `Option`-valued embedding.
-/

namespace RaftMatch

/-- `rust_decimal::Decimal` modelled as an exact rational. -/
abbrev Dec := ℚ

/-- Exact decimal addition.  (Kernel-reducible construction of `a + b`:
Batteries marks `Rat.add` irreducible, so the model computes the sum as
the normalized fraction from `Rat.add_def'`; `Dec.add_eq` below equates
it with `a + b`.) -/
def Dec.add (a b : Dec) : Dec :=
  mkRat (a.num * b.den + b.num * a.den) (a.den * b.den)

/-- Exact decimal subtraction (see `Dec.add`). -/
def Dec.sub (a b : Dec) : Dec :=
  mkRat (a.num * b.den - b.num * a.den) (a.den * b.den)

/-! ## engine/entry/order.rs -/

/-- `OrderType` from engine/entry/order.rs. -/
inductive OrderType
  | Market
  | Limit
deriving DecidableEq, Repr

/-- `OrderSide` from engine/entry/order.rs. -/
inductive OrderSide
  | Buy
  | Sell
deriving DecidableEq, Repr

/-- `OrderStatus` from engine/entry/order.rs. -/
inductive OrderStatus
  | New
  | PartiallyFilled
  | Filled
  | Canceled
  | Rejected
deriving DecidableEq, Repr

/-- `Order` from engine/entry/order.rs.  Timestamps are the `u64` second
counts the source stores. -/
structure Order where
  id : String
  symbol : String
  order_type : OrderType
  side : OrderSide
  price : Dec
  quantity : Dec
  filled_quantity : Dec
  status : OrderStatus
  created_at : ℕ
  updated_at : ℕ
deriving DecidableEq, Repr

/-- `Order::remaining_quantity`. -/
def Order.remaining_quantity (o : Order) : Dec :=
  Dec.sub o.quantity o.filled_quantity

/-- `Order::is_filled`: `filled_quantity >= quantity`. -/
def Order.is_filled (o : Order) : Bool :=
  decide (o.quantity ≤ o.filled_quantity)

/-- `Order::update_status`.  The source sets the status from the fill
state and stamps `updated_at` with `SystemTime::now()`; the clock value is
the explicit argument `now`. -/
def Order.update_status (o : Order) (now : ℕ) : Order :=
  let o' :=
    if o.is_filled then { o with status := OrderStatus.Filled }
    else if 0 < o.filled_quantity then { o with status := OrderStatus.PartiallyFilled }
    else o
  { o' with updated_at := now }

/-! ## engine/entry/trade.rs -/

/-- `Trade` from engine/entry/trade.rs.  `created_at` (a `SystemTime` in
the source) is modelled by the environment clock. -/
structure Trade where
  id : String
  symbol : String
  price : Dec
  quantity : Dec
  buyer_order_id : String
  seller_order_id : String
  created_at : ℕ
deriving DecidableEq, Repr

/-- `Trade::new`; the trade id comes from `Uuid::new_v4()`, supplied here
by the caller (drawn from the environment's uuid stream). -/
def Trade.new (id symbol : String) (price quantity : Dec)
    (buyer_order_id seller_order_id : String) (now : ℕ) : Trade :=
  { id, symbol, price, quantity, buyer_order_id, seller_order_id, created_at := now }

/-! ## engine/entry/symbol.rs -/

/-- `SymbolStatus` from engine/entry/symbol.rs. -/
inductive SymbolStatus
  | Active
  | Inactive
  | Delisted
deriving DecidableEq, Repr

/-- `Symbol` from engine/entry/symbol.rs. -/
structure Symbol where
  name : String
  base_currency : String
  quote_currency : String
  price_precision : ℤ
  quantity_precision : ℤ
  min_price : Dec
  max_price : Dec
  min_quantity : Dec
  max_quantity : Dec
  status : SymbolStatus
  created_at : ℕ
  updated_at : ℕ
deriving DecidableEq, Repr

/-- `Symbol::validate_price`. -/
def Symbol.validate_price (s : Symbol) (price : Dec) : Bool :=
  decide (s.min_price ≤ price) && decide (price ≤ s.max_price)

/-- `Symbol::validate_quantity`. -/
def Symbol.validate_quantity (s : Symbol) (quantity : Dec) : Bool :=
  decide (s.min_quantity ≤ quantity) && decide (quantity ≤ s.max_quantity)

/-! ## Association lists standing for `BTreeMap` / `HashMap`

The embedded code only looks maps up by key, inserts, removes, and takes
the least / greatest key; all of these are modelled on association lists.
All insertions below keep keys distinct, but the lemmas are stated for the
first matching occurrence so they hold unconditionally. -/

/-- Lookup of the first entry with the given key. -/
def alGet {κ α : Type} [DecidableEq κ] : List (κ × α) → κ → Option α
  | [], _ => none
  | (k', v) :: rest, k => if k' = k then some v else alGet rest k

/-- Replace the value of the first entry with the given key (no-op when
the key is absent); models in-place mutation through `get_mut`. -/
def alReplace {κ α : Type} [DecidableEq κ] : List (κ × α) → κ → α → List (κ × α)
  | [], _, _ => []
  | (k', v') :: rest, k, v =>
      if k' = k then (k', v) :: rest else (k', v') :: alReplace rest k v

/-- Remove the first entry with the given key; models map `remove`. -/
def alRemove {κ α : Type} [DecidableEq κ] : List (κ × α) → κ → List (κ × α)
  | [], _ => []
  | (k', v') :: rest, k => if k' = k then rest else (k', v') :: alRemove rest k

/-- Map `insert`: overwrite the existing entry or add a new one. -/
def alInsert {κ α : Type} [DecidableEq κ] (m : List (κ × α)) (k : κ) (v : α) :
    List (κ × α) :=
  if (alGet m k).isSome then alReplace m k v else m ++ [(k, v)]

/-- `entry(k).or_default().push(v)` on a map of vectors. -/
def alPush {κ α : Type} [DecidableEq κ] (m : List (κ × List α)) (k : κ) (v : α) :
    List (κ × List α) :=
  match alGet m k with
  | some vs => alReplace m k (vs ++ [v])
  | none => m ++ [(k, [v])]

/-- The greatest key of the map (`keys().next_back()` on a `BTreeMap`). -/
def maxKey? {α : Type} : List (Dec × α) → Option Dec
  | [] => none
  | (k, _) :: rest =>
      match maxKey? rest with
      | none => some k
      | some m => some (max k m)

/-- The least key of the map (`keys().next()` on a `BTreeMap`). -/
def minKey? {α : Type} : List (Dec × α) → Option Dec
  | [] => none
  | (k, _) :: rest =>
      match minKey? rest with
      | none => some k
      | some m => some (min k m)

/-! ## engine/data/orderbook.rs -/

/-- `OrderBook` from engine/data/orderbook.rs: the two price ladders and
the id index. -/
structure OrderBook where
  symbol : String
  bids : List (Dec × List Order)
  asks : List (Dec × List Order)
  orders_by_id : List (String × Order)
deriving DecidableEq, Repr

/-- `OrderBook::new`. -/
def OrderBook.new (symbol : String) : OrderBook :=
  { symbol, bids := [], asks := [], orders_by_id := [] }

/-- `OrderBook::add_order`. -/
def OrderBook.add_order (ob : OrderBook) (order : Order) : OrderBook :=
  let ob' :=
    match order.side with
    | OrderSide.Buy => { ob with bids := alPush ob.bids order.price order }
    | OrderSide.Sell => { ob with asks := alPush ob.asks order.price order }
  { ob' with orders_by_id := alInsert ob'.orders_by_id order.id order }

/-- `OrderBook::remove_order`. -/
def OrderBook.remove_order (ob : OrderBook) (order_id : String) :
    OrderBook × Option Order :=
  match alGet ob.orders_by_id order_id with
  | none => (ob, none)
  | some order =>
      let ob₁ := { ob with orders_by_id := alRemove ob.orders_by_id order_id }
      let ob₂ :=
        match order.side with
        | OrderSide.Buy =>
            match alGet ob₁.bids order.price with
            | none => ob₁
            | some orders =>
                let orders' := orders.filter (fun o => o.id ≠ order_id)
                if orders'.isEmpty then
                  { ob₁ with bids := alRemove ob₁.bids order.price }
                else
                  { ob₁ with bids := alReplace ob₁.bids order.price orders' }
        | OrderSide.Sell =>
            match alGet ob₁.asks order.price with
            | none => ob₁
            | some orders =>
                let orders' := orders.filter (fun o => o.id ≠ order_id)
                if orders'.isEmpty then
                  { ob₁ with asks := alRemove ob₁.asks order.price }
                else
                  { ob₁ with asks := alReplace ob₁.asks order.price orders' }
      (ob₂, some order)

/-- `OrderBook::get_best_bid` (greatest bid price). -/
def OrderBook.get_best_bid (ob : OrderBook) : Option Dec :=
  maxKey? ob.bids

/-- `OrderBook::get_best_ask` (least ask price). -/
def OrderBook.get_best_ask (ob : OrderBook) : Option Dec :=
  minKey? ob.asks

/-! ## engine/matchlogic/matcher.rs

The matching loops read the wall clock (`Order::update_status`) and fresh
UUIDs (`Uuid::new_v4()` for trade ids).  Both are nondeterministic process
inputs, modelled by an explicit environment threaded through the loops
together with a counter `cnt` indexing the uuid stream. -/

/-- The nondeterministic inputs of a run: the wall clock read by
`SystemTime::now()` and the stream of uuids drawn by `Uuid::new_v4()`. -/
structure Env where
  now : ℕ
  uuid : ℕ → String

/-- The opposing ladder of a taker of the given side (asks for a buy,
bids for a sell), as selected by the `match order.side` dispatches in
`Matcher::match_market_order`. -/
def OrderBook.oppMap (ob : OrderBook) (side : OrderSide) : List (Dec × List Order) :=
  match side with
  | OrderSide.Buy => ob.asks
  | OrderSide.Sell => ob.bids

/-- Write back the opposing ladder of a taker of the given side. -/
def OrderBook.setOpp (ob : OrderBook) (side : OrderSide)
    (m : List (Dec × List Order)) : OrderBook :=
  match side with
  | OrderSide.Buy => { ob with asks := m }
  | OrderSide.Sell => { ob with bids := m }

/-- Total number of orders resting in a ladder. -/
def oppCount (m : List (Dec × List Order)) : ℕ :=
  (m.map (fun e => e.2.length)).sum

/-- The body of `Matcher::match_market_order`'s `while !order.is_filled()`
loop.  Every iteration either fills the taker (ending the loop at the
next guard) or removes the fully filled maker from the opposing ladder,
so the measure `2 * oppCount (opposing ladder) + (1 if taker unfilled)`
strictly decreases and the Rust loop terminates.  The recursion is on
explicit fuel bounding that measure; `matchMarket` supplies
`2 * oppCount + 1 ≥ measure`, and since fuel drops by exactly one per
iteration while the measure drops by at least one, fuel can reach zero
only when the measure is zero — where the taker is filled and the guard
would stop the loop anyway — so the fuel exit returns the same state the
guard exit would. -/
def matchMarketGo (env : Env) : ℕ → OrderBook → Order → ℕ → List Trade →
    OrderBook × Order × List Trade × ℕ
  | 0, ob, order, cnt, trades => (ob, order, trades, cnt)
  | fuel + 1, ob, order, cnt, trades =>
      if order.is_filled then (ob, order, trades, cnt)
      else
        match (match order.side with
               | OrderSide.Buy => ob.get_best_ask
               | OrderSide.Sell => ob.get_best_bid) with
        | none => (ob, order, trades, cnt)
        | some price =>
            match alGet (ob.oppMap order.side) price with
            | none => (ob, order, trades, cnt)
            | some [] => (ob, order, trades, cnt)
            | some (matching_order :: rest) =>
                let trade_quantity :=
                  min order.remaining_quantity matching_order.remaining_quantity
                let trade := Trade.new (env.uuid cnt) order.symbol price trade_quantity
                  (if order.side = OrderSide.Buy then order.id else matching_order.id)
                  (if order.side = OrderSide.Buy then matching_order.id else order.id)
                  env.now
                let order' := Order.update_status
                  { order with filled_quantity := Dec.add order.filled_quantity trade_quantity }
                  env.now
                let matching_order' := Order.update_status
                  { matching_order with
                      filled_quantity := Dec.add matching_order.filled_quantity trade_quantity }
                  env.now
                if matching_order'.is_filled then
                  let ob' :=
                    if rest.isEmpty then
                      ob.setOpp order.side (alRemove (ob.oppMap order.side) price)
                    else
                      ob.setOpp order.side (alReplace (ob.oppMap order.side) price rest)
                  matchMarketGo env fuel ob' order' (cnt + 1) (trades ++ [trade])
                else
                  let ob' := ob.setOpp order.side
                    (alReplace (ob.oppMap order.side) price (matching_order' :: rest))
                  matchMarketGo env fuel ob' order' (cnt + 1) (trades ++ [trade])

/-- `Matcher::match_market_order`'s loop entered with sufficient fuel
(see `matchMarketGo`). -/
def matchMarket (env : Env) (ob : OrderBook) (order : Order) (cnt : ℕ)
    (trades : List Trade) : OrderBook × Order × List Trade × ℕ :=
  matchMarketGo env (2 * oppCount (ob.oppMap order.side) + 1) ob order cnt trades

/-- `Matcher` from engine/matchlogic/matcher.rs. -/
structure Matcher where
  orderbook : OrderBook
deriving DecidableEq, Repr

/-- `Matcher::new`. -/
def Matcher.new (symbol : String) : Matcher :=
  ⟨OrderBook.new symbol⟩

/-- `Matcher::match_market_order` (entered with an empty trade list). -/
def Matcher.match_market_order (env : Env) (m : Matcher) (order : Order) (cnt : ℕ) :
    Matcher × Order × List Trade × ℕ :=
  let r := matchMarket env m.orderbook order cnt []
  (⟨r.1⟩, r.2.1, r.2.2.1, r.2.2.2)

/-- The body of `Matcher::match_limit_order`'s `while` loop.  The Rust
loop re-checks the crossing condition and delegates to the market path;
its termination relies on the book invariant that no empty price level
persists (on a book with an empty level at the best opposing price the
Rust loop itself would spin forever).  The embedding therefore takes
explicit fuel; `Matcher.place_order` passes enough that on any book
without empty levels the fuel is never exhausted: each delegated market
step either fills the taker or leaves the opposing side empty, ending
the loop at the next guard. -/
def matchLimitGo (env : Env) : ℕ → OrderBook → Order → ℕ → List Trade →
    OrderBook × Order × List Trade × ℕ
  | 0, ob, order, cnt, trades => (ob, order, trades, cnt)
  | fuel + 1, ob, order, cnt, trades =>
      if order.is_filled then (ob, order, trades, cnt)
      else
        let can_match :=
          match order.side with
          | OrderSide.Buy =>
              match ob.get_best_ask with
              | some best_ask => decide (best_ask ≤ order.price)
              | none => false
          | OrderSide.Sell =>
              match ob.get_best_bid with
              | some best_bid => decide (order.price ≤ best_bid)
              | none => false
        if can_match then
          let r := matchMarket env ob order cnt trades
          matchLimitGo env fuel r.1 r.2.1 r.2.2.2 r.2.2.1
        else (ob, order, trades, cnt)

/-- `Matcher::place_order`.  Note that the source inserts any unfilled
remainder into the book — market orders included. -/
def Matcher.place_order (env : Env) (m : Matcher) (order : Order) (cnt : ℕ) :
    Matcher × List Trade × ℕ :=
  let r :=
    match order.order_type with
    | OrderType.Market => matchMarket env m.orderbook order cnt []
    | OrderType.Limit =>
        matchLimitGo env (oppCount (m.orderbook.oppMap order.side) + 2)
          m.orderbook order cnt []
  if r.2.1.is_filled then (⟨r.1⟩, r.2.2.1, r.2.2.2)
  else (⟨r.1.add_order r.2.1⟩, r.2.2.1, r.2.2.2)

/-- `Matcher::cancel_order` (delegates to `OrderBook::remove_order`). -/
def Matcher.cancel_order (m : Matcher) (order_id : String) : Matcher × Option Order :=
  let r := m.orderbook.remove_order order_id
  (⟨r.1⟩, r.2)

/-- One client call on a matcher over a fresh order book — the operations
quantified over by the book invariants. -/
inductive MOp
  | place (o : Order)
  | cancel (id : String)

/-- Apply one matcher call to (matcher, uuid counter). -/
def Matcher.apply_op (env : Env) (st : Matcher × ℕ) (op : MOp) : Matcher × ℕ :=
  match op with
  | MOp.place o =>
      let r := st.1.place_order env o st.2
      (r.1, r.2.2)
  | MOp.cancel i => ((st.1.cancel_order i).1, st.2)

/-- Run a sequence of matcher calls starting from a fresh book. -/
def runOps (env : Env) (symbol : String) (ops : List MOp) : Matcher × ℕ :=
  ops.foldl (Matcher.apply_op env) (Matcher.new symbol, 0)

/-! ## engine/spot/symbol_manager.rs -/

/-- `SymbolManager` from engine/spot/symbol_manager.rs. -/
structure SymbolManager where
  symbols : List (String × Symbol)
  matchers : List (String × Matcher)
deriving DecidableEq, Repr

/-- `SymbolManager::new`. -/
def SymbolManager.new : SymbolManager :=
  ⟨[], []⟩

/-- `SymbolManager::add_symbol`. -/
def SymbolManager.add_symbol (sm : SymbolManager) (symbol : Symbol) :
    SymbolManager × Except String Unit :=
  if (alGet sm.symbols symbol.name).isSome then
    (sm, Except.error ("Symbol " ++ symbol.name ++ " already exists"))
  else
    ({ symbols := alInsert sm.symbols symbol.name symbol,
       matchers := alInsert sm.matchers symbol.name (Matcher.new symbol.name) },
     Except.ok ())

/-- `SymbolManager::delist_symbol`: mark delisted, drop the matcher. -/
def SymbolManager.delist_symbol (sm : SymbolManager) (name : String) :
    SymbolManager × Except String Unit :=
  match alGet sm.symbols name with
  | some symbol =>
      ({ symbols := alReplace sm.symbols name { symbol with status := SymbolStatus.Delisted },
         matchers := alRemove sm.matchers name },
       Except.ok ())
  | none => (sm, Except.error ("Symbol " ++ name ++ " does not exist"))

/-- `SymbolManager::get_symbol_and_matcher`. -/
def SymbolManager.get_symbol_and_matcher (sm : SymbolManager) (name : String) :
    Option (Symbol × Matcher) :=
  match alGet sm.symbols name, alGet sm.matchers name with
  | some s, some m => some (s, m)
  | _, _ => none

/-! ## engine/spot/order_processor.rs -/

/-- `OrderProcessor` from engine/spot/order_processor.rs. -/
structure OrderProcessor where
  symbol_manager : SymbolManager
deriving DecidableEq, Repr

/-- `OrderProcessor::new`. -/
def OrderProcessor.new : OrderProcessor :=
  ⟨SymbolManager.new⟩

/-- `OrderProcessor::place_order`: symbol lookup, status and bounds
validation, then matching.  The mutated matcher is written back to the
manager's map (the source mutates it through `&mut`). -/
def OrderProcessor.place_order (env : Env) (p : OrderProcessor) (order : Order)
    (cnt : ℕ) : OrderProcessor × Except String (List Trade) × ℕ :=
  match p.symbol_manager.get_symbol_and_matcher order.symbol with
  | none =>
      (p, Except.error ("Symbol with id " ++ order.symbol ++ " does not exist"), cnt)
  | some (symbol_info, matcher) =>
      if symbol_info.status ≠ SymbolStatus.Active then
        (p, Except.error ("Symbol with id " ++ order.symbol ++ " is not active"), cnt)
      else if !(symbol_info.validate_price order.price) then
        (p, Except.error ("Invalid price for symbol " ++ symbol_info.name), cnt)
      else if !(symbol_info.validate_quantity order.quantity) then
        (p, Except.error ("Invalid quantity for symbol " ++ symbol_info.name), cnt)
      else
        let r := matcher.place_order env order cnt
        ({ symbol_manager :=
            { p.symbol_manager with
                matchers := alReplace p.symbol_manager.matchers order.symbol r.1 } },
         Except.ok r.2.1, r.2.2)

/-- `OrderProcessor::cancel_order`. -/
def OrderProcessor.cancel_order (p : OrderProcessor) (symbol_id order_id : String) :
    OrderProcessor × Except String (Option Order) :=
  match p.symbol_manager.get_symbol_and_matcher symbol_id with
  | none =>
      (p, Except.error ("Symbol with id " ++ symbol_id ++ " does not exist"))
  | some (symbol_info, matcher) =>
      if symbol_info.status ≠ SymbolStatus.Active then
        (p, Except.error ("Symbol with id " ++ symbol_id ++ " is not active"))
      else
        let r := matcher.cancel_order order_id
        ({ symbol_manager :=
            { p.symbol_manager with
                matchers := alReplace p.symbol_manager.matchers symbol_id r.1 } },
         Except.ok r.2)

/-- `OrderProcessor::add_symbol`. -/
def OrderProcessor.add_symbol (p : OrderProcessor) (symbol : Symbol) :
    OrderProcessor × Except String Unit :=
  let r := p.symbol_manager.add_symbol symbol
  (⟨r.1⟩, r.2)

/-- `OrderProcessor::del_symbol` (delegates to `delist_symbol`). -/
def OrderProcessor.del_symbol (p : OrderProcessor) (symbol : String) :
    OrderProcessor × Except String Unit :=
  let r := p.symbol_manager.delist_symbol symbol
  (⟨r.1⟩, r.2)

/-! ## engine/matchengine.rs -/

/-- `MatchCmdType` from engine/matchengine.rs (bincode encodes the
variant index as a little-endian `u32` in this declaration order). -/
inductive MatchCmdType
  | PlaceOrder
  | CancelOrder
  | CreateSymbol
  | UpdateSymbol
  | RemoveSymbol
deriving DecidableEq, Repr

/-- `MatchCmd` from engine/matchengine.rs. -/
structure MatchCmd where
  cmd : MatchCmdType
  order : Option Order
  symbol : Option Symbol
deriving DecidableEq, Repr

/-- `MatchEngine` from engine/matchengine.rs. -/
structure MatchEngine where
  index : ℕ
  spot_processor : OrderProcessor
deriving DecidableEq, Repr

/-- `MatchEngine::new`. -/
def MatchEngine.new : MatchEngine :=
  ⟨0, OrderProcessor.new⟩

/-- The dispatch of `MatchEngine::on_message` after `bincode::deserialize`
(`dec = none` models a deserialize error, which is only logged).  The
result is `none` exactly when the source panics: each order command calls
`cmd.order.unwrap()` and each symbol command calls `cmd.symbol.unwrap()`
on a possibly absent field.  `self.index = index` happens before
deserialization in the source, so it is applied in every branch. -/
def MatchEngine.on_message_cmd (env : Env) (eng : MatchEngine) (index : ℕ)
    (dec : Option MatchCmd) (cnt : ℕ) : Option (MatchEngine × ℕ) :=
  let eng' : MatchEngine := { eng with index := index }
  match dec with
  | none => some (eng', cnt)
  | some cmd =>
      match cmd.cmd with
      | MatchCmdType.PlaceOrder =>
          match cmd.order with
          | none => none
          | some o =>
              let r := eng'.spot_processor.place_order env o cnt
              some ({ eng' with spot_processor := r.1 }, r.2.2)
      | MatchCmdType.CancelOrder =>
          match cmd.order with
          | none => none
          | some o =>
              let r := eng'.spot_processor.cancel_order o.symbol o.id
              some ({ eng' with spot_processor := r.1 }, cnt)
      | MatchCmdType.CreateSymbol =>
          match cmd.symbol with
          | none => none
          | some s =>
              let r := eng'.spot_processor.add_symbol s
              some ({ eng' with spot_processor := r.1 }, cnt)
      | MatchCmdType.RemoveSymbol =>
          match cmd.symbol with
          | none => none
          | some s =>
              let r := eng'.spot_processor.del_symbol s.name
              some ({ eng' with spot_processor := r.1 }, cnt)
      | MatchCmdType.UpdateSymbol => some (eng', cnt)

/-! ## `bincode::deserialize` for `MatchCmd`

bincode 1.x with its default options encodes integers fixed-width
little-endian, enum variant indices as `u32`, `Option` as a one-byte tag,
and strings as a `u64` length followed by UTF-8 bytes.  `rust_decimal`'s
default serde representation is the decimal rendered as a string, parsed
back with `Decimal::from_str`.  The decoder below implements exactly
that, with two conscious simplifications: string payload bytes are
restricted to ASCII (multi-byte UTF-8 is rejected rather than decoded),
and `Decimal::from_str` is modelled on the plain `[+-]?digits[.digits]`
forms without the 96-bit mantissa overflow check.  Payload bytes are
modelled as `List ℕ` with every byte below 256. -/

/-- Take `n` bytes from the stream. -/
def takeBytes (n : ℕ) (l : List ℕ) : Option (List ℕ × List ℕ) :=
  if n ≤ l.length then some (l.take n, l.drop n) else none

/-- Little-endian value of a byte list. -/
def leVal (bs : List ℕ) : ℕ :=
  bs.foldr (fun b acc => b + 256 * acc) 0

/-- Fixed-width `u64`, little endian. -/
def decodeU64 (l : List ℕ) : Option (ℕ × List ℕ) := do
  let (bs, l) ← takeBytes 8 l
  pure (leVal bs, l)

/-- Fixed-width `u32`, little endian. -/
def decodeU32 (l : List ℕ) : Option (ℕ × List ℕ) := do
  let (bs, l) ← takeBytes 4 l
  pure (leVal bs, l)

/-- Single byte. -/
def decodeU8 (l : List ℕ) : Option (ℕ × List ℕ) := do
  let (bs, l) ← takeBytes 1 l
  pure (leVal bs, l)

/-- Fixed-width `i32`, little endian, two's complement. -/
def decodeI32 (l : List ℕ) : Option (ℤ × List ℕ) := do
  let (v, l) ← decodeU32 l
  pure (if v < 2 ^ 31 then (v : ℤ) else (v : ℤ) - 2 ^ 32, l)

/-- A `String`: `u64` length then that many bytes (ASCII modelled). -/
def decodeString (l : List ℕ) : Option (String × List ℕ) := do
  let (n, l) ← decodeU64 l
  let (bs, l) ← takeBytes n l
  if bs.all (fun b => b < 128) then
    pure (String.mk (bs.map Char.ofNat), l)
  else none

/-- Decimal digit? -/
def isDigitChar (c : Char) : Bool :=
  decide ('0' ≤ c) && decide (c ≤ '9')

/-- Value of a digit run (most significant first). -/
def digitsVal : List Char → ℕ → ℕ
  | [], acc => acc
  | c :: cs, acc => digitsVal cs (acc * 10 + (c.toNat - 48))

/-- `Decimal::from_str` on `[+-]?digits[.digits]` forms. -/
def parseDecimal (s : List Char) : Option ℚ :=
  let signed : Bool × List Char :=
    match s with
    | '-' :: rest => (true, rest)
    | '+' :: rest => (false, rest)
    | _ => (false, s)
  let neg := signed.1
  let s1 := signed.2
  let intPart := s1.takeWhile isDigitChar
  let s2 := s1.dropWhile isDigitChar
  let mk : ℚ → Option ℚ := fun q => some (if neg then -q else q)
  match s2 with
  | [] => if intPart.isEmpty then none else mk (mkRat (digitsVal intPart 0) 1)
  | '.' :: fracPart =>
      if fracPart.all isDigitChar && !(intPart.isEmpty && fracPart.isEmpty) then
        mk (mkRat (digitsVal intPart 0 * 10 ^ fracPart.length + digitsVal fracPart 0)
          (10 ^ fracPart.length))
      else none
  | _ => none

/-- A serde `Decimal`: a string, parsed with `Decimal::from_str`. -/
def decodeDec (l : List ℕ) : Option (Dec × List ℕ) := do
  let (s, l) ← decodeString l
  match parseDecimal s.toList with
  | some q => pure (q, l)
  | none => none

/-- `Option<T>`: one-byte tag, `0 = None`, `1 = Some`. -/
def decodeOption {α : Type} (sub : List ℕ → Option (α × List ℕ)) (l : List ℕ) :
    Option (Option α × List ℕ) := do
  let (t, l) ← decodeU8 l
  match t with
  | 0 => pure (none, l)
  | 1 => do
      let (v, l) ← sub l
      pure (some v, l)
  | _ => none

/-- `OrderType` variant index. -/
def decodeOrderType (l : List ℕ) : Option (OrderType × List ℕ) := do
  let (t, l) ← decodeU32 l
  match t with
  | 0 => pure (OrderType.Market, l)
  | 1 => pure (OrderType.Limit, l)
  | _ => none

/-- `OrderSide` variant index. -/
def decodeOrderSide (l : List ℕ) : Option (OrderSide × List ℕ) := do
  let (t, l) ← decodeU32 l
  match t with
  | 0 => pure (OrderSide.Buy, l)
  | 1 => pure (OrderSide.Sell, l)
  | _ => none

/-- `OrderStatus` variant index. -/
def decodeOrderStatus (l : List ℕ) : Option (OrderStatus × List ℕ) := do
  let (t, l) ← decodeU32 l
  match t with
  | 0 => pure (OrderStatus.New, l)
  | 1 => pure (OrderStatus.PartiallyFilled, l)
  | 2 => pure (OrderStatus.Filled, l)
  | 3 => pure (OrderStatus.Canceled, l)
  | 4 => pure (OrderStatus.Rejected, l)
  | _ => none

/-- `SymbolStatus` variant index. -/
def decodeSymbolStatus (l : List ℕ) : Option (SymbolStatus × List ℕ) := do
  let (t, l) ← decodeU32 l
  match t with
  | 0 => pure (SymbolStatus.Active, l)
  | 1 => pure (SymbolStatus.Inactive, l)
  | 2 => pure (SymbolStatus.Delisted, l)
  | _ => none

/-- An `Order`, fields in declaration order. -/
def decodeOrder (l : List ℕ) : Option (Order × List ℕ) := do
  let (id, l) ← decodeString l
  let (symbol, l) ← decodeString l
  let (order_type, l) ← decodeOrderType l
  let (side, l) ← decodeOrderSide l
  let (price, l) ← decodeDec l
  let (quantity, l) ← decodeDec l
  let (filled_quantity, l) ← decodeDec l
  let (status, l) ← decodeOrderStatus l
  let (created_at, l) ← decodeU64 l
  let (updated_at, l) ← decodeU64 l
  pure ({ id, symbol, order_type, side, price, quantity, filled_quantity,
          status, created_at, updated_at }, l)

/-- A `Symbol`, fields in declaration order. -/
def decodeSymbol (l : List ℕ) : Option (Symbol × List ℕ) := do
  let (name, l) ← decodeString l
  let (base_currency, l) ← decodeString l
  let (quote_currency, l) ← decodeString l
  let (price_precision, l) ← decodeI32 l
  let (quantity_precision, l) ← decodeI32 l
  let (min_price, l) ← decodeDec l
  let (max_price, l) ← decodeDec l
  let (min_quantity, l) ← decodeDec l
  let (max_quantity, l) ← decodeDec l
  let (status, l) ← decodeSymbolStatus l
  let (created_at, l) ← decodeU64 l
  let (updated_at, l) ← decodeU64 l
  pure ({ name, base_currency, quote_currency, price_precision,
          quantity_precision, min_price, max_price, min_quantity,
          max_quantity, status, created_at, updated_at }, l)

/-- `MatchCmdType` variant index. -/
def decodeMatchCmdType (l : List ℕ) : Option (MatchCmdType × List ℕ) := do
  let (t, l) ← decodeU32 l
  match t with
  | 0 => pure (MatchCmdType.PlaceOrder, l)
  | 1 => pure (MatchCmdType.CancelOrder, l)
  | 2 => pure (MatchCmdType.CreateSymbol, l)
  | 3 => pure (MatchCmdType.UpdateSymbol, l)
  | 4 => pure (MatchCmdType.RemoveSymbol, l)
  | _ => none

/-- `bincode::deserialize::<MatchCmd>` (trailing bytes are not
rejected, matching bincode 1.x's `deserialize`). -/
def deserializeMatchCmd (l : List ℕ) : Option MatchCmd := do
  let (cmd, l) ← decodeMatchCmdType l
  let (order, l) ← decodeOption decodeOrder l
  let (symbol, _) ← decodeOption decodeSymbol l
  pure { cmd, order, symbol }

/-- `MatchEngine::on_message` on a raw payload. -/
def MatchEngine.on_message (env : Env) (eng : MatchEngine) (index : ℕ)
    (data : List ℕ) (cnt : ℕ) : Option (MatchEngine × ℕ) :=
  eng.on_message_cmd env index (deserializeMatchCmd data) cnt

/-- Apply a sequence of committed `(index, payload)` entries to a fresh
`MatchEngine` (the state-machine run of `StateMatch::apply`); `none`
models a panic at some entry. -/
def runEngine (env : Env) (entries : List (ℕ × List ℕ)) : Option (MatchEngine × ℕ) :=
  entries.foldl
    (fun acc e =>
      match acc with
      | none => none
      | some (eng, cnt) => eng.on_message env e.1 e.2 cnt)
    (some (MatchEngine.new, 0))

/-! ## raft/segment.rs

A segment file's raw contents are a `List ℕ` of bytes (each below 256):
a 16-byte header (`bincode`-serialized `SegmentHeader`, which for two
`u64` fields is exactly their fixed-width little-endian bytes) followed
by `size:u64 LE | payload` records.  File reads/writes are explicit;
`none` models an `io::Error`. -/

/-- 8-byte little-endian encoding of a `u64` value. -/
def toLE8 (n : ℕ) : List ℕ :=
  (List.range 8).map (fun i => n / 256 ^ i % 256)

/-- Overwrite `bytes` into `file` at offset `pos` (extending the file if
the write runs past its end). -/
def writeAt (file : List ℕ) (pos : ℕ) (bytes : List ℕ) : List ℕ :=
  file.take pos ++ bytes ++ file.drop (pos + bytes.length)

/-- `read_exact` of `n` bytes at offset `pos`: fails past end-of-file. -/
def readAt (file : List ℕ) (pos n : ℕ) : Option (List ℕ) :=
  if pos + n ≤ file.length then some ((file.drop pos).take n) else none

/-- `Segment` from raft/segment.rs (the open `File` handle is replaced
by passing the file contents to each operation). -/
structure Segment where
  start_index : ℕ
  end_index : ℕ
  path : String
  entry_positions : List (ℕ × ℕ)
deriving DecidableEq, Repr

/-- The walk of `Segment::rebuild_entry_positions`: read a record size
at `pos`, record `start_index + positions.len() ↦ pos`, skip the record.
The Rust loop terminates because `pos` advances by at least the 8-byte
record header each step; the recursion is on explicit fuel, and
`Segment.new` passes the file length, which bounds the number of
iterations (each consumes at least 8 bytes of a file that must hold a
16-byte header for the walk to start). -/
def rebuildGo (file : List ℕ) (start : ℕ) : ℕ → ℕ → List (ℕ × ℕ) → Option (List (ℕ × ℕ))
  | 0, pos, acc => if pos < file.length then none else some acc
  | fuel + 1, pos, acc =>
      if pos < file.length then
        match readAt file pos 8 with
        | none => none
        | some szb =>
            rebuildGo file start fuel (pos + 8 + leVal szb) (acc ++ [(start + acc.length, pos)])
      else some acc

/-- `Segment::new`: open or create.  `file? = none` models an absent
path; a created (or empty) file gets a fresh header, otherwise the header
is read back and the position map rebuilt. -/
def Segment.new (path : String) (start_index : ℕ) (file? : Option (List ℕ)) :
    Option (Segment × List ℕ) :=
  let emptyCase : Segment × List ℕ :=
    (⟨start_index, start_index, path, []⟩, toLE8 start_index ++ toLE8 start_index)
  match file? with
  | none => some emptyCase
  | some file =>
      if file.length = 0 then some emptyCase
      else do
        let hdr ← readAt file 0 16
        let s := leVal (hdr.take 8)
        let e := leVal (hdr.drop 8)
        let positions ← rebuildGo file s file.length 16 []
        pure (⟨s, e, path, positions⟩, file)

/-- `Segment::append`: seek to the end, write each record, record its
position at index `end_index + 1`, then rewrite the header. -/
def Segment.append (seg : Segment) (file : List ℕ) (entries : List (List ℕ)) :
    Segment × List ℕ :=
  let r := entries.foldl
    (fun (st : Segment × List ℕ) (entry : List ℕ) =>
      let file' := st.2 ++ toLE8 entry.length ++ entry
      let entry_index := st.1.end_index + 1
      let pos := file'.length - entry.length - 8
      ({ st.1 with
          end_index := entry_index,
          entry_positions := alInsert st.1.entry_positions entry_index pos },
       file'))
    (seg, file)
  (r.1, writeAt r.2 0 (toLE8 r.1.start_index ++ toLE8 r.1.end_index))

/-- `Segment::read_entry`. -/
def Segment.read_entry (seg : Segment) (file : List ℕ) (index : ℕ) : Option (List ℕ) :=
  if index < seg.start_index ∨ seg.end_index < index then none
  else do
    let pos ← alGet seg.entry_positions index
    let szb ← readAt file pos 8
    readAt file (pos + 8) (leVal szb)

/-! ## raft/storage.rs -/

/-- `raft::eraftpb::Snapshot`, reduced to the fields the storage code
observes: metadata index and term plus the opaque data payload. -/
structure SnapshotM where
  index : ℕ
  term : ℕ
  data : List ℕ
deriving DecidableEq, Repr

/-- `Snapshot::write_to_bytes` (protobuf), modelled by a concrete
length-prefixed encoding; the claims only require that the written bytes
carry the snapshot. -/
def SnapshotM.write_to_bytes (s : SnapshotM) : List ℕ :=
  toLE8 s.index ++ toLE8 s.term ++ toLE8 s.data.length ++ s.data

/-- Modelled from the spec: `Segment::clear` is called by
`FileStorage::save_snapshot` but its definition is not among the
provided sources; spec §4.1 defines it as "clear(): delete the file". -/
def Segment.clear (seg : Segment) (files : List (String × List ℕ)) :
    List (String × List ℕ) :=
  alRemove files seg.path

/-- The state of `FileStorage` that `save_snapshot` touches: the segment
map and the files under `base_path` (name ↦ contents).  The in-memory
`MemStorage` is external raft-rs state; the base snapshot obtained from
`self.snapshot(applied, 0)` is therefore an explicit argument below, and
`mem_storage.compact` has no effect on this state. -/
structure FileStorage where
  segments : List (ℕ × Segment)
  files : List (String × List ℕ)
deriving DecidableEq, Repr

/-- `FileStorage::save_snapshot`: overwrite the base snapshot's payload
with the business bytes, write `snapshot.tmp`, remove any existing
`snapshot`, rename `snapshot.tmp → snapshot`, then clear (delete the
file of) and drop from the map every segment with
`end_index ≤ snapshot.metadata.index`. -/
def FileStorage.save_snapshot (fs : FileStorage) (baseSnap : SnapshotM)
    (biz_data : List ℕ) : FileStorage :=
  let snapshot : SnapshotM := { baseSnap with data := biz_data }
  let bytes := snapshot.write_to_bytes
  let files₁ := alInsert fs.files "snapshot.tmp" bytes
  let files₂ := alRemove files₁ "snapshot"
  let files₃ := alInsert (alRemove files₂ "snapshot.tmp") "snapshot" bytes
  let cleared := fs.segments.filter (fun e => decide (e.2.end_index ≤ snapshot.index))
  let files₄ := cleared.foldl (fun f e => e.2.clear f) files₃
  let segments' := fs.segments.filter (fun e => !decide (e.2.end_index ≤ snapshot.index))
  { segments := segments', files := files₄ }

/-! ## raft/node.rs -/

/-- `Proposal` (raft/proposal.rs) as `Node::notice_proposed` observes it:
the stamped index and the identity of its completion sender.  Proposals
in the in-flight queue always hold their sender (`propose` enqueues
without taking it), so `propose_success.take().unwrap()` succeeds. -/
structure ProposalM where
  proposed : ℕ
  chan : ℕ
deriving DecidableEq, Repr

/-- The index-walk loop of `Node::notice_proposed`; `sends` records each
`send(b)` performed on a completion channel. -/
def noticeGo (last_index : ℕ) : ℕ → List ProposalM → List (ℕ × Bool) →
    List ProposalM × List (ℕ × Bool)
  | i, q, sends =>
      if h : i < q.length then
        let p := q.get ⟨i, h⟩
        if p.proposed ≤ last_index then
          noticeGo last_index i (q.eraseIdx i) (sends ++ [(p.chan, true)])
        else
          noticeGo last_index (i + 1) q sends
      else (q, sends)
termination_by i q _ => q.length - i
decreasing_by
  · have := List.length_eraseIdx_add_one h
    omega
  · omega

/-- `Node::notice_proposed`. -/
def notice_proposed (last_index : ℕ) (proposed : List ProposalM) :
    List ProposalM × List (ℕ × Bool) :=
  noticeGo last_index 0 proposed []

/-! ## match_service.rs -/

/-- The outcome of awaiting a proposal's oneshot receiver: `ok b` is a
wake carrying the boolean sent by the node loop, `closed` is
`RecvError` (sender dropped). -/
inductive RecvOutcome
  | ok (b : Bool)
  | closed
deriving DecidableEq, Repr

/-- A client RPC result: a normal `{ret, message}` response or a
`tonic::Status::internal` error. -/
inductive RpcReply
  | response (ret : ℕ) (message : String)
  | internal_error (message : String)
deriving DecidableEq, Repr

/-- `MatchServiceSVC::place_order` after serialization succeeds: when the
request carries no order the proposal path is skipped entirely and
`ret = 0` is returned; otherwise the handler awaits the oneshot.
`let _ = rx.await.map_err(|_| Status::internal("raft error"))?`
distinguishes only a closed channel — the wake's boolean is discarded. -/
def place_order_rpc (has_order : Bool) (outcome : RecvOutcome) : RpcReply :=
  if has_order then
    match outcome with
    | RecvOutcome.closed => RpcReply.internal_error "raft error"
    | RecvOutcome.ok _ => RpcReply.response 0 "ok"
  else RpcReply.response 0 "ok"

/-- `MatchServiceSVC::cancel_order` wake handling (boolean discarded). -/
def cancel_order_rpc (outcome : RecvOutcome) : RpcReply :=
  match outcome with
  | RecvOutcome.closed => RpcReply.internal_error "raft error"
  | RecvOutcome.ok _ => RpcReply.response 0 "ok"

/-- `MatchServiceSVC::create_symbol` wake handling (boolean discarded;
the source formats the receive error into the message). -/
def create_symbol_rpc (outcome : RecvOutcome) : RpcReply :=
  match outcome with
  | RecvOutcome.closed => RpcReply.internal_error "raft error: RecvError(())"
  | RecvOutcome.ok _ => RpcReply.response 0 "ok"

/-- `MatchServiceSVC::remove_symbol` wake handling (boolean discarded). -/
def remove_symbol_rpc (outcome : RecvOutcome) : RpcReply :=
  match outcome with
  | RecvOutcome.closed => RpcReply.internal_error "raft error"
  | RecvOutcome.ok _ => RpcReply.response 0 "ok"

/-! ## Derived notions used by the stated properties -/

/-- The ladder on which an order of the given side rests (bids for a
buy, asks for a sell). -/
def OrderBook.sideMap (ob : OrderBook) (side : OrderSide) : List (Dec × List Order) :=
  match side with
  | OrderSide.Buy => ob.bids
  | OrderSide.Sell => ob.asks

/-- All orders resting in the book's price levels. -/
def allResting (ob : OrderBook) : List Order :=
  (ob.bids.map Prod.snd).flatten ++ (ob.asks.map Prod.snd).flatten

/-- The ids of all resting orders. -/
def ridList (ob : OrderBook) : List String :=
  (allResting ob).map Order.id

/-- The resting orders carrying a given id. -/
def restingWithId (ob : OrderBook) (id : String) : List Order :=
  (allResting ob).filter (fun o => decide (o.id = id))

/-- Well-formedness of one price ladder: no empty level persists, and
every resting order carries the level's price, the ladder's side, and
positive remaining quantity. -/
def LadderOk (side : OrderSide) (m : List (Dec × List Order)) : Prop :=
  ∀ e ∈ m, e.2 ≠ [] ∧ ∀ o ∈ e.2, o.price = e.1 ∧ o.side = side ∧ 0 < o.remaining_quantity

/-- Ladder well-formedness of both sides of a book. -/
def LevelsOk (ob : OrderBook) : Prop :=
  LadderOk OrderSide.Buy ob.bids ∧ LadderOk OrderSide.Sell ob.asks

/-- The orders resting in one ladder, in ladder order. -/
def levelOrders (m : List (Dec × List Order)) : List Order :=
  (m.map Prod.snd).flatten

/-- The side of the makers a taker of the given side matches against. -/
def oppSide : OrderSide → OrderSide
  | OrderSide.Buy => OrderSide.Sell
  | OrderSide.Sell => OrderSide.Buy

/-- How many of the listed orders carry the given id. -/
def idCount (l : List Order) (i : String) : ℕ :=
  (l.filter (fun o => decide (o.id = i))).length

/-- Every order of `new` already rests in `old` with the same id, price
and side: the matching loop removes and mutates fill state but never
invents a resting order. -/
def Transfer (old new : List Order) : Prop :=
  ∀ o' ∈ new, ∃ o ∈ old, o'.id = o.id ∧ o'.price = o.price ∧ o'.side = o.side

/-- A trade struck by a taker of the given side and id against some maker
resting in the ladder `old`: positive quantity, priced at the maker's
resting price, with the maker on the passive leg of the fill. -/
def TradeFromLadder (side : OrderSide) (tid : String) (old : List Order)
    (t : Trade) : Prop :=
  0 < t.quantity ∧ ∃ o ∈ old, t.price = o.price ∧
    (side = OrderSide.Buy → t.buyer_order_id = tid ∧ t.seller_order_id = o.id) ∧
    (side = OrderSide.Sell → t.seller_order_id = tid ∧ t.buyer_order_id = o.id)

/-- The orders placed by a call sequence. -/
def placedOrders : List MOp → List Order
  | [] => []
  | MOp.place o :: r => o :: placedOrders r
  | MOp.cancel _ :: r => placedOrders r

/-- The ids of the orders placed by a call sequence. -/
def placedIds : List MOp → List String
  | [] => []
  | MOp.place o :: r => o.id :: placedIds r
  | MOp.cancel _ :: r => placedIds r

/-- The full book invariant maintained by `place_order` / `cancel_order`
from a fresh book, relative to the set `used` of ids placed so far. -/
structure BookInv (ob : OrderBook) (used : List String) : Prop where
  bids_ok : LadderOk OrderSide.Buy ob.bids
  asks_ok : LadderOk OrderSide.Sell ob.asks
  bids_keys : (ob.bids.map Prod.fst).Nodup
  asks_keys : (ob.asks.map Prod.fst).Nodup
  byid_keys : (ob.orders_by_id.map Prod.fst).Nodup
  resting_byid : ∀ o ∈ allResting ob, ∃ w, alGet ob.orders_by_id o.id = some w ∧
      w.price = o.price ∧ w.side = o.side
  resting_unique : ∀ i, idCount (allResting ob) i ≤ 1
  resting_used : ∀ i, i ∉ used → idCount (allResting ob) i = 0
  byid_used : ∀ id, id ∉ used → alGet ob.orders_by_id id = none

/-- The decoded command carries the field its `on_message` branch
unwraps. -/
def cmdFieldsPresent : Option MatchCmd → Bool
  | none => true
  | some cmd =>
      match cmd.cmd with
      | MatchCmdType.PlaceOrder => cmd.order.isSome
      | MatchCmdType.CancelOrder => cmd.order.isSome
      | MatchCmdType.CreateSymbol => cmd.symbol.isSome
      | MatchCmdType.RemoveSymbol => cmd.symbol.isSome
      | MatchCmdType.UpdateSymbol => true

/-! ## Concrete inputs used by counterexamples and witnesses -/

/-- An environment whose clock reads 0. -/
def envZero : Env := ⟨0, fun _ => ""⟩

/-- An environment whose clock reads 1 (all else as `envZero`). -/
def envOne : Env := ⟨1, fun _ => ""⟩

/-- A freshly parsed order as the service constructs it. -/
def mkOrderC (id : String) (ty : OrderType) (side : OrderSide)
    (price quantity : Dec) : Order :=
  ⟨id, "S", ty, side, price, quantity, 0, OrderStatus.New, 0, 0⟩

/-- Book with resting asks at 5 and 20 (both quantity 1). -/
def c3Setup : Matcher × ℕ :=
  runOps envZero "S"
    [MOp.place (mkOrderC "A" OrderType.Limit OrderSide.Sell 5 1),
     MOp.place (mkOrderC "B" OrderType.Limit OrderSide.Sell 20 1)]

/-- The limit buy whose limit price is 10. -/
def c3Buy : Order := mkOrderC "C" OrderType.Limit OrderSide.Buy 10 2

/-- Placing the limit buy on the two-ask book. -/
def c3Result : Matcher × List Trade × ℕ :=
  c3Setup.1.place_order envZero c3Buy c3Setup.2

/-- A market buy (quantity 1) on an empty book. -/
def c4Order : Order := mkOrderC "D" OrderType.Market OrderSide.Buy 42 1

/-- Placing the market buy on a fresh book. -/
def c4Result : Matcher × List Trade × ℕ :=
  (Matcher.new "S").place_order envZero c4Order 0

/-- A resting sell fully crossed by a buy: the filled maker id stays in
`orders_by_id`. -/
def c2Ops : List MOp :=
  [MOp.place (mkOrderC "A" OrderType.Limit OrderSide.Sell 10 1),
   MOp.place (mkOrderC "B" OrderType.Limit OrderSide.Buy 10 1)]

/-- The book after `c2Ops`. -/
def c2Book : OrderBook := (runOps envZero "S" c2Ops).1.orderbook

/-- Two placements sharing the id "A" at different prices, then a
cancel of "A". -/
def c2DupOps : List MOp :=
  [MOp.place (mkOrderC "A" OrderType.Limit OrderSide.Buy 10 1),
   MOp.place (mkOrderC "A" OrderType.Limit OrderSide.Buy 20 1)]

/-- The book after `c2DupOps`. -/
def c2DupBook : OrderBook := (runOps envZero "S" c2DupOps).1.orderbook

/-- Eight zero bytes (an empty string / zero `u64`). -/
def z8 : List ℕ := [0, 0, 0, 0, 0, 0, 0, 0]

/-- A one-character string: `u64` length 1, then the byte. -/
def str1 (b : ℕ) : List ℕ := [1, 0, 0, 0, 0, 0, 0, 0, b]

/-- The decimal string "0". -/
def dec0 : List ℕ := str1 48

/-- The decimal string "100". -/
def dec100 : List ℕ := [3, 0, 0, 0, 0, 0, 0, 0, 49, 48, 48]

/-- The decimal string "10". -/
def dec10 : List ℕ := [2, 0, 0, 0, 0, 0, 0, 0, 49, 48]

/-- The decimal string "1". -/
def dec1 : List ℕ := str1 49

/-- The decimal string "0.5". -/
def decHalf : List ℕ := [3, 0, 0, 0, 0, 0, 0, 0, 48, 46, 53]

/-- `CreateSymbol` payload: symbol "S", prices and quantities bounded by
[0, 100], status Active. -/
def createSBytes : List ℕ :=
  [2, 0, 0, 0] ++ [0] ++ [1] ++ str1 83 ++ z8 ++ z8 ++ [0, 0, 0, 0] ++ [0, 0, 0, 0]
    ++ dec0 ++ dec100 ++ dec0 ++ dec100 ++ [0, 0, 0, 0] ++ z8 ++ z8

/-- `PlaceOrder` payload: limit sell "A", 1 at 10 on "S". -/
def placeSellABytes : List ℕ :=
  [0, 0, 0, 0] ++ [1] ++ str1 65 ++ str1 83 ++ [1, 0, 0, 0] ++ [1, 0, 0, 0]
    ++ dec10 ++ dec1 ++ dec0 ++ [0, 0, 0, 0] ++ z8 ++ z8 ++ [0]

/-- `PlaceOrder` payload: limit buy "B", 0.5 at 10 on "S" (partially
fills the resting "A"). -/
def placeBuyBBytes : List ℕ :=
  [0, 0, 0, 0] ++ [1] ++ str1 66 ++ str1 83 ++ [1, 0, 0, 0] ++ [0, 0, 0, 0]
    ++ dec10 ++ decHalf ++ dec0 ++ [0, 0, 0, 0] ++ z8 ++ z8 ++ [0]

/-- A committed sequence: create "S", place the sell, place the crossing
buy. -/
def c1Seq : List (ℕ × List ℕ) :=
  [(1, createSBytes), (2, placeSellABytes), (3, placeBuyBBytes)]

/-- A decodable `PlaceOrder` command whose `order` field is `None`. -/
def c10Payload : List ℕ := [0, 0, 0, 0, 0, 0]

/-- A fresh segment at `start_index = 0`. -/
def c5Open : Option (Segment × List ℕ) := Segment.new "segment_0.log" 0 none

/-- The segment after appending the payloads `[7]` and `[9]` (occupying
indices 1 and 2). -/
def c5Appended : Option (Segment × List ℕ) :=
  c5Open.map (fun p => p.1.append p.2 [[7], [9]])

/-- Reopening the same file with the same `start_index`. -/
def c5Reopened : Option (Segment × List ℕ) :=
  c5Appended.bind (fun p => Segment.new "segment_0.log" 0 (some p.2))

/-- A file storage with one fully covered segment and one live segment,
used to witness `save_snapshot`'s compaction. -/
def c8Store : FileStorage :=
  ⟨[(0, ⟨0, 3, "segment_0.log", []⟩), (10000, ⟨10000, 10002, "segment_10000.log", []⟩)],
   [("segment_0.log", [1, 2]), ("segment_10000.log", [3, 4])]⟩

/-- A base snapshot at index 5 with empty payload. -/
def c8BaseSnap : SnapshotM := ⟨5, 1, []⟩

/-- A resting ask for the C6 scenario: sell 1 at 5, id "A". -/
def c6Sell : Order := mkOrderC "A" OrderType.Limit OrderSide.Sell 5 1

/-- The C6 taker: buy 1 at 5, id "B". -/
def c6Buy : Order := mkOrderC "B" OrderType.Limit OrderSide.Buy 5 1

/-- The C6 call sequence: place the ask. -/
def c6Ops : List MOp := [MOp.place c6Sell]

/-- The trade the C6 taker strikes against the resting ask. -/
def c6Trade : Trade := ⟨"", "S", 5, 1, "B", "A", 0⟩

/-- The C2 witness call sequence: two distinct-id resting orders. -/
def c2WOps : List MOp :=
  [MOp.place (mkOrderC "A" OrderType.Limit OrderSide.Sell 5 1),
   MOp.place (mkOrderC "B" OrderType.Limit OrderSide.Buy 4 1)]

/-! # Lemmas -/

@[simp] theorem Order.update_status_id (o : Order) (now : ℕ) :
    (o.update_status now).id = o.id := by
  unfold Order.update_status; dsimp only; split <;> [skip; split] <;> rfl

@[simp] theorem Order.update_status_symbol (o : Order) (now : ℕ) :
    (o.update_status now).symbol = o.symbol := by
  unfold Order.update_status; dsimp only; split <;> [skip; split] <;> rfl

@[simp] theorem Order.update_status_order_type (o : Order) (now : ℕ) :
    (o.update_status now).order_type = o.order_type := by
  unfold Order.update_status; dsimp only; split <;> [skip; split] <;> rfl

@[simp] theorem Order.update_status_price (o : Order) (now : ℕ) :
    (o.update_status now).price = o.price := by
  unfold Order.update_status; dsimp only; split <;> [skip; split] <;> rfl

@[simp] theorem Order.update_status_side (o : Order) (now : ℕ) :
    (o.update_status now).side = o.side := by
  unfold Order.update_status; dsimp only; split <;> [skip; split] <;> rfl

@[simp] theorem Order.update_status_quantity (o : Order) (now : ℕ) :
    (o.update_status now).quantity = o.quantity := by
  unfold Order.update_status; dsimp only; split <;> [skip; split] <;> rfl

@[simp] theorem Order.update_status_filled_quantity (o : Order) (now : ℕ) :
    (o.update_status now).filled_quantity = o.filled_quantity := by
  unfold Order.update_status; dsimp only; split <;> [skip; split] <;> rfl

@[simp] theorem Order.update_status_is_filled (o : Order) (now : ℕ) :
    (o.update_status now).is_filled = o.is_filled := by
  unfold Order.is_filled
  rw [Order.update_status_quantity, Order.update_status_filled_quantity]

@[simp] theorem OrderBook.oppMap_setOpp (ob : OrderBook) (side : OrderSide)
    (m : List (Dec × List Order)) : (ob.setOpp side m).oppMap side = m := by
  cases side <;> rfl

theorem alGet_mem {κ α : Type} [DecidableEq κ] {m : List (κ × α)} {k : κ} {v : α}
    (h : alGet m k = some v) : (k, v) ∈ m := by
  induction m with
  | nil => simp [alGet] at h
  | cons e rest ih =>
      obtain ⟨k', w⟩ := e
      by_cases hk : k' = k
      · subst hk
        simp [alGet] at h
        subst h
        exact List.mem_cons_self _ _
      · simp only [alGet, if_neg hk] at h
        exact List.mem_cons_of_mem _ (ih h)

theorem mem_alReplace {κ α : Type} [DecidableEq κ] {m : List (κ × α)} {k : κ} {v : α}
    {e : κ × α} (h : e ∈ alReplace m k v) : e ∈ m ∨ e = (k, v) := by
  induction m with
  | nil => simp [alReplace] at h
  | cons f rest ih =>
      obtain ⟨k', w⟩ := f
      by_cases hk : k' = k
      · subst hk
        simp only [alReplace, if_pos rfl] at h
        rcases List.mem_cons.mp h with h | h
        · exact Or.inr h
        · exact Or.inl (List.mem_cons_of_mem _ h)
      · simp only [alReplace, if_neg hk] at h
        rcases List.mem_cons.mp h with h | h
        · exact Or.inl (h ▸ List.mem_cons_self _ _)
        · rcases ih h with h | h
          · exact Or.inl (List.mem_cons_of_mem _ h)
          · exact Or.inr h

theorem mem_alRemove {κ α : Type} [DecidableEq κ] {m : List (κ × α)} {k : κ}
    {e : κ × α} (h : e ∈ alRemove m k) : e ∈ m := by
  induction m with
  | nil => simp [alRemove] at h
  | cons f rest ih =>
      obtain ⟨k', w⟩ := f
      by_cases hk : k' = k
      · subst hk
        simp only [alRemove, if_pos rfl] at h
        exact List.mem_cons_of_mem _ h
      · simp only [alRemove, if_neg hk] at h
        rcases List.mem_cons.mp h with h | h
        · exact h ▸ List.mem_cons_self _ _
        · exact List.mem_cons_of_mem _ (ih h)

theorem mem_alPush {κ α : Type} [DecidableEq κ] {m : List (κ × List α)} {k : κ} {v : α}
    {e : κ × List α} (h : e ∈ alPush m k v) :
    e ∈ m ∨ (∃ vs, alGet m k = some vs ∧ e = (k, vs ++ [v])) ∨
      (alGet m k = none ∧ e = (k, [v])) := by
  unfold alPush at h
  cases hg : alGet m k with
  | some vs =>
      rw [hg] at h
      rcases mem_alReplace h with h | h
      · exact Or.inl h
      · exact Or.inr (Or.inl ⟨vs, rfl, h⟩)
  | none =>
      rw [hg] at h
      rcases List.mem_append.mp h with h | h
      · exact Or.inl h
      · simp at h
        exact Or.inr (Or.inr ⟨rfl, by simp [h]⟩)

theorem alGet_append {κ α : Type} [DecidableEq κ] (m n : List (κ × α)) (k : κ) :
    alGet (m ++ n) k =
      match alGet m k with
      | some v => some v
      | none => alGet n k := by
  induction m with
  | nil => simp [alGet]
  | cons e rest ih =>
      obtain ⟨k', w⟩ := e
      simp only [List.cons_append, alGet]
      split
      · rfl
      · exact ih

theorem alGet_alReplace_of_isSome {κ α : Type} [DecidableEq κ] {m : List (κ × α)}
    {k : κ} (v : α) (h : (alGet m k).isSome) : alGet (alReplace m k v) k = some v := by
  induction m with
  | nil => simp [alGet] at h
  | cons e rest ih =>
      obtain ⟨k', w⟩ := e
      by_cases hk : k' = k
      · subst hk
        simp [alReplace, alGet]
      · simp only [alGet, if_neg hk] at h
        simp only [alReplace, if_neg hk, alGet, if_neg hk]
        exact ih h

theorem alGet_alReplace_ne {κ α : Type} [DecidableEq κ] {m : List (κ × α)}
    {k k' : κ} (v : α) (hne : k ≠ k') :
    alGet (alReplace m k v) k' = alGet m k' := by
  induction m with
  | nil => rfl
  | cons e rest ih =>
      obtain ⟨k₀, w⟩ := e
      by_cases hk : k₀ = k
      · subst hk
        simp [alReplace, alGet, hne]
      · simp only [alReplace, if_neg hk, alGet]
        split
        · rfl
        · exact ih

theorem alGet_alInsert {κ α : Type} [DecidableEq κ] (m : List (κ × α)) (k : κ) (v : α) :
    alGet (alInsert m k v) k = some v := by
  unfold alInsert
  split
  · exact alGet_alReplace_of_isSome v (by assumption)
  · rw [alGet_append]
    rename_i h
    rw [Option.not_isSome_iff_eq_none] at h
    rw [h]
    simp [alGet]

theorem alGet_alInsert_ne {κ α : Type} [DecidableEq κ] (m : List (κ × α)) {k k' : κ}
    (v : α) (hne : k ≠ k') : alGet (alInsert m k v) k' = alGet m k' := by
  unfold alInsert
  split
  · exact alGet_alReplace_ne v hne
  · rw [alGet_append]
    cases h : alGet m k' with
    | some w => rfl
    | none => simp [alGet, hne]

theorem alGet_alRemove_ne {κ α : Type} [DecidableEq κ] (m : List (κ × α)) {k k' : κ}
    (hne : k ≠ k') : alGet (alRemove m k) k' = alGet m k' := by
  induction m with
  | nil => rfl
  | cons e rest ih =>
      obtain ⟨k₀, w⟩ := e
      by_cases hk : k₀ = k
      · subst hk
        simp [alRemove, alGet, hne]
      · simp only [alRemove, if_neg hk, alGet]
        split
        · rfl
        · exact ih

/-! # Results on the claims -/

/-- C3: the specification claims every trade generated by placing a
limit buy order executes at a price at most the order's limit price.
The code violates this: `match_limit_order` only checks the crossing
condition before delegating to `match_market_order`, which then walks
the whole opposing ladder unconstrained.  On a book with asks at 5 and
20, the limit buy "C" (limit price 10, quantity 2) trades once at 5 and
once at 20 — above its limit. -/
theorem C3_limit_price_violation :
    c3Buy.order_type = OrderType.Limit ∧ c3Buy.side = OrderSide.Buy ∧
    c3Result.2.1.map Trade.price = [5, 20] ∧ ¬ ((20 : Dec) ≤ c3Buy.price) := by
  refine ⟨rfl, rfl, by decide, by decide⟩

/-- C4 counterexample: the claim says a market order is never inserted
into the order book.  Placing the market buy `c4Order` (quantity 1) on a
fresh, empty book matches nothing and yet the order is inserted into the
bids ladder at its price, with its id indexed in `orders_by_id`. -/
theorem C4_counterexample :
    c4Order.order_type = OrderType.Market ∧
    c4Result.2.1 = [] ∧
    alGet c4Result.1.orderbook.bids c4Order.price = some [c4Order] ∧
    alGet c4Result.1.orderbook.orders_by_id c4Order.id = some c4Order := by
  refine ⟨rfl, by decide, by decide, by decide⟩

/-- C5: the spec's round-trip property fails.  A segment created at
`start_index = 0` with payloads `[7]`, `[9]` appended (indices 1 and 2)
reads them back correctly, but after reopening the same file
`rebuild_entry_positions` re-indexes the records from `start_index`
instead of `start_index + 1`: `read_entry 1` now returns `[9]` (the
payload appended at index 2) and `read_entry 2` fails although it is
the segment's `end_index`. -/
theorem C5_reopen_shifts_entries :
    (c5Appended.bind (fun p => p.1.read_entry p.2 1)) = some [7] ∧
    (c5Appended.bind (fun p => p.1.read_entry p.2 2)) = some [9] ∧
    (c5Reopened.map (fun p => p.1.end_index)) = some 2 ∧
    (c5Reopened.bind (fun p => p.1.read_entry p.2 1)) = some [9] ∧
    (c5Reopened.bind (fun p => p.1.read_entry p.2 2)) = none := by
  refine ⟨by decide, by decide, by decide, by decide, by decide⟩

/-- C9: the claim (and spec §4.8) says a failure wake — the completion
channel resolving with `false` — returns an internal error to the
client.  All four handlers discard the wake's boolean
(`let _ = rx.await.map_err(...)?`), so a failure wake produces the same
`ret = 0` success response as a success wake; only a closed channel
yields the internal error. -/
theorem C9_failure_wake_returns_ok :
    place_order_rpc true (RecvOutcome.ok false) = RpcReply.response 0 "ok" ∧
    cancel_order_rpc (RecvOutcome.ok false) = RpcReply.response 0 "ok" ∧
    create_symbol_rpc (RecvOutcome.ok false) = RpcReply.response 0 "ok" ∧
    remove_symbol_rpc (RecvOutcome.ok false) = RpcReply.response 0 "ok" ∧
    place_order_rpc true RecvOutcome.closed = RpcReply.internal_error "raft error" := by
  exact ⟨rfl, rfl, rfl, rfl, rfl⟩

/-- C1: the claim says re-applying the same committed `(index, payload)`
sequence to a fresh state machine yields byte-identical `snapshot()`
output.  Applying the same three committed payloads (create symbol "S",
place resting sell "A", place crossing buy "B") under two wall-clock
readings (0 and 1) produces different engine states: the partially
filled maker's `updated_at` is stamped with `SystemTime::now()` by
`Order::update_status`.  Since `bincode::serialize` is injective on
`MatchEngine` values, the serialized `snapshot()` bytes differ. -/
theorem C1_wall_clock_snapshot_divergence :
    (runEngine envZero c1Seq).isSome ∧
    (runEngine envOne c1Seq).isSome ∧
    runEngine envZero c1Seq ≠ runEngine envOne c1Seq := by
  refine ⟨by decide, by decide, by decide⟩

/-- C10 counterexample: the claim says `apply` returns normally on every
payload byte string.  The six-byte payload `[0,0,0,0,0,0]` deserializes
successfully to a `PlaceOrder` command with `order: None`, and
`on_message` then panics on `cmd.order.unwrap()` (modelled as `none`). -/
theorem C10_counterexample :
    deserializeMatchCmd c10Payload = some ⟨MatchCmdType.PlaceOrder, none, none⟩ ∧
    MatchEngine.on_message envZero MatchEngine.new 1 c10Payload 0 = none := by
  refine ⟨by decide, by decide⟩

/-- C2 counterexample: the claim says every order id in `orders_by_id`
corresponds to exactly one order resting in exactly one price level at
the recorded price.  (1) After sell "A" (1 at 10) rests and buy "B"
(1 at 10) fully crosses it, `match_market_order` removes "A" from the
ask level but never from `orders_by_id`: "A" remains indexed while both
ladders are empty.  (2) After two placements sharing the id "A" (at 10
and at 20), the id "A" is indexed once but two orders carrying it rest
in the book. -/
theorem C2_counterexample :
    ((alGet c2Book.orders_by_id "A").isSome ∧
      c2Book.bids = [] ∧ c2Book.asks = []) ∧
    ((alGet c2DupBook.orders_by_id "A").isSome ∧
      (restingWithId c2DupBook "A").length = 2) := by
  refine ⟨⟨by decide, by decide, by decide⟩, ⟨by decide, by decide⟩⟩

theorem noticeGo_spec (last : ℕ) :
    ∀ (n i : ℕ) (q : List ProposalM) (sends : List (ℕ × Bool)), q.length - i ≤ n →
      noticeGo last i q sends =
        (q.take i ++ (q.drop i).filter (fun p => !decide (p.proposed ≤ last)),
         sends ++ ((q.drop i).filter (fun p => decide (p.proposed ≤ last))).map
           (fun p => (p.chan, true))) := by
  intro n
  induction n with
  | zero =>
      intro i q sends hn
      have hle : q.length ≤ i := by omega
      rw [noticeGo]
      rw [dif_neg (by omega)]
      rw [List.take_of_length_le hle, List.drop_of_length_le hle]
      simp
  | succ n ih =>
      intro i q sends hn
      rw [noticeGo]
      by_cases h : i < q.length
      · rw [dif_pos h]
        have hdrop : q.drop i = q.get ⟨i, h⟩ :: q.drop (i + 1) := by
          rw [List.get_eq_getElem]
          exact List.drop_eq_getElem_cons h
        by_cases hp : (q.get ⟨i, h⟩).proposed ≤ last
        · rw [if_pos hp]
          rw [ih i (q.eraseIdx i) (sends ++ [((q.get ⟨i, h⟩).chan, true)])
            (by have := List.length_eraseIdx_add_one h; omega)]
          have htk : (q.eraseIdx i).take i = q.take i := by
            rw [List.eraseIdx_eq_take_drop_succ]
            exact List.take_left' (by rw [List.length_take]; omega)
          have hdr : (q.eraseIdx i).drop i = q.drop (i + 1) := by
            rw [List.eraseIdx_eq_take_drop_succ]
            exact List.drop_left' (by rw [List.length_take]; omega)
          rw [htk, hdr, hdrop]
          rw [List.filter_cons, List.filter_cons]
          have hp' : q[i].proposed ≤ last := by rw [List.get_eq_getElem] at hp; exact hp
          simp [hp]
          rw [if_neg (by omega : ¬ last < q[i].proposed), if_pos hp']
          simp
        · rw [if_neg hp]
          rw [ih (i + 1) q sends (by omega)]
          have htk : q.take (i + 1) = q.take i ++ [q.get ⟨i, h⟩] := by
            rw [List.take_succ]
            congr 1
            rw [List.getElem?_eq_getElem h]
            rfl
          rw [hdrop]
          rw [List.filter_cons, List.filter_cons]
          simp [hp]
          have hp' : ¬ q[i].proposed ≤ last := by
            rw [List.get_eq_getElem] at hp
            exact hp
          rw [if_pos (show last < q[i].proposed by omega), if_neg hp']
          constructor
          · rw [htk, List.append_assoc]
            rfl
          · rfl
      · rw [dif_neg h]
        have hle : q.length ≤ i := by omega
        rw [List.take_of_length_le hle, List.drop_of_length_le hle]
        simp

/-- C7: after the apply phase, `Node::notice_proposed` walks the
in-flight queue by index: every queued proposal whose stamped index is
at most the last applied index gets `send(true)` on its completion
channel and is removed; every proposal with a higher stamped index
remains queued, in order, with no send performed on it. -/
theorem C7_notice_proposed_index_walk (last_index : ℕ) (q : List ProposalM) :
    notice_proposed last_index q =
      (q.filter (fun p => !decide (p.proposed ≤ last_index)),
       (q.filter (fun p => decide (p.proposed ≤ last_index))).map
         (fun p => (p.chan, true))) := by
  unfold notice_proposed
  rw [noticeGo_spec last_index q.length 0 q [] (by omega)]
  simp

theorem alGet_eq_none_iff {κ α : Type} [DecidableEq κ] {m : List (κ × α)} {k : κ} :
    alGet m k = none ↔ ∀ e ∈ m, e.1 ≠ k := by
  induction m with
  | nil => simp [alGet]
  | cons e rest ih =>
      obtain ⟨k', w⟩ := e
      by_cases hk : k' = k
      · subst hk
        simp [alGet]
      · simp [alGet, hk, ih]

theorem alGet_alRemove_eq_none {κ α : Type} [DecidableEq κ] {m : List (κ × α)} {k k' : κ}
    (h : alGet m k' = none) : alGet (alRemove m k) k' = none := by
  rw [alGet_eq_none_iff] at h ⊢
  exact fun e he => h e (mem_alRemove he)

theorem alGet_alRemove_self {κ α : Type} [DecidableEq κ] {m : List (κ × α)} {k : κ}
    (h : (m.map Prod.fst).Nodup) : alGet (alRemove m k) k = none := by
  induction m with
  | nil => rfl
  | cons e rest ih =>
      obtain ⟨k', w⟩ := e
      simp only [List.map_cons, List.nodup_cons] at h
      by_cases hk : k' = k
      · subst hk
        simp only [alRemove, if_pos rfl]
        rw [alGet_eq_none_iff]
        intro e he hek
        exact h.1 (hek ▸ List.mem_map_of_mem Prod.fst he)
      · simp only [alRemove, if_neg hk, alGet, if_neg hk]
        exact ih h.2

theorem map_fst_alRemove_sublist {κ α : Type} [DecidableEq κ] (m : List (κ × α)) (k : κ) :
    ((alRemove m k).map Prod.fst).Sublist (m.map Prod.fst) := by
  induction m with
  | nil => simp [alRemove]
  | cons e rest ih =>
      obtain ⟨k', w⟩ := e
      by_cases hk : k' = k
      · subst hk
        simp only [alRemove, if_pos rfl, List.map_cons]
        exact List.sublist_cons_self _ _
      · simp only [alRemove, if_neg hk, List.map_cons]
        exact ih.cons₂ _

theorem nodup_alRemove {κ α : Type} [DecidableEq κ] {m : List (κ × α)} (k : κ)
    (h : (m.map Prod.fst).Nodup) : ((alRemove m k).map Prod.fst).Nodup :=
  (map_fst_alRemove_sublist m k).nodup h

theorem map_fst_alReplace {κ α : Type} [DecidableEq κ] (m : List (κ × α)) (k : κ) (v : α) :
    (alReplace m k v).map Prod.fst = m.map Prod.fst := by
  induction m with
  | nil => rfl
  | cons e rest ih =>
      obtain ⟨k', w⟩ := e
      by_cases hk : k' = k
      · subst hk
        simp [alReplace]
      · simp [alReplace, hk, ih]

theorem nodup_alInsert {κ α : Type} [DecidableEq κ] (m : List (κ × α)) (k : κ) (v : α)
    (h : (m.map Prod.fst).Nodup) : ((alInsert m k v).map Prod.fst).Nodup := by
  unfold alInsert
  split
  · rw [map_fst_alReplace]
    exact h
  · rename_i hnone
    rw [Option.not_isSome_iff_eq_none, alGet_eq_none_iff] at hnone
    rw [List.map_append]
    apply List.Nodup.append h (by simp)
    intro a ha hb
    simp only [List.map_cons, List.map_nil, List.mem_singleton] at hb
    subst hb
    rcases List.mem_map.mp ha with ⟨e, he, heq⟩
    exact hnone e he heq

/-- A file already absent stays absent through the delete fold. -/
theorem alGet_clear_foldl_none (segs : List (ℕ × Segment))
    (files : List (String × List ℕ)) (name : String)
    (h : alGet files name = none) :
    alGet (segs.foldl (fun f s => s.2.clear f) files) name = none := by
  induction segs generalizing files with
  | nil => exact h
  | cons t more ih =>
      simp only [List.foldl_cons]
      exact ih _ (alGet_alRemove_eq_none h)

/-- The file-delete fold of `save_snapshot` removes every cleared
segment's file. -/
theorem alGet_clear_foldl_of_mem (segs : List (ℕ × Segment))
    (files : List (String × List ℕ)) (hnodup : (files.map Prod.fst).Nodup) :
    ∀ e ∈ segs,
      alGet (segs.foldl (fun f s => s.2.clear f) files) e.2.path = none := by
  induction segs generalizing files with
  | nil => intro e he; simp at he
  | cons s rest ih =>
      intro e he
      rcases List.mem_cons.mp he with he | he
      · subst he
        simp only [List.foldl_cons]
        exact alGet_clear_foldl_none rest (e.2.clear files) e.2.path
          (alGet_alRemove_self hnodup)
      · simp only [List.foldl_cons]
        exact ih (s.2.clear files) (nodup_alRemove _ hnodup) e he

/-- The file-delete fold of `save_snapshot` leaves files whose name is
none of the cleared segments' paths untouched. -/
theorem alGet_clear_foldl_of_ne (segs : List (ℕ × Segment))
    (files : List (String × List ℕ)) (name : String)
    (h : ∀ e ∈ segs, e.2.path ≠ name) :
    alGet (segs.foldl (fun f s => s.2.clear f) files) name = alGet files name := by
  induction segs generalizing files with
  | nil => rfl
  | cons s rest ih =>
      simp only [List.foldl_cons]
      rw [ih (s.2.clear files) (fun e he => h e (List.mem_cons_of_mem _ he))]
      exact alGet_alRemove_ne files (h s (List.mem_cons_self _ _))

/-- C8: after `save_snapshot(state_bytes, applied)` the store retains no
segment whose `end_index` is at most the snapshot's index — those
segments' files are deleted and their entries removed from the segment
map — and the file named `snapshot` holds the snapshot whose data
payload equals `state_bytes`.  The base snapshot the code obtains from
the raft-rs `MemStorage` is the explicit `baseSnap`; distinct file names
and segment files not named `snapshot` reflect the on-disk layout.
(`Segment::clear` is not among the provided sources; it is modelled from
spec §4.1 as deleting the file.) -/
theorem C8_save_snapshot_spec (fs : FileStorage) (baseSnap : SnapshotM) (biz : List ℕ)
    (hpaths : ∀ e ∈ fs.segments, e.2.path ≠ "snapshot")
    (hnodup : (fs.files.map Prod.fst).Nodup) :
    (∀ e ∈ (fs.save_snapshot baseSnap biz).segments, baseSnap.index < e.2.end_index) ∧
    (∀ e ∈ fs.segments, e.2.end_index ≤ baseSnap.index →
      alGet (fs.save_snapshot baseSnap biz).files e.2.path = none ∧
      e ∉ (fs.save_snapshot baseSnap biz).segments) ∧
    alGet (fs.save_snapshot baseSnap biz).files "snapshot" =
      some (SnapshotM.write_to_bytes ⟨baseSnap.index, baseSnap.term, biz⟩) := by
  unfold FileStorage.save_snapshot
  dsimp only
  refine ⟨?_, ?_, ?_⟩
  · intro e he
    have := List.of_mem_filter he
    simp only [Bool.not_eq_true', decide_eq_false_iff_not, not_le] at this
    exact this
  · intro e he hle
    constructor
    · apply alGet_clear_foldl_of_mem
      · exact nodup_alInsert _ _ _
          (nodup_alRemove _ (nodup_alRemove _ (nodup_alInsert _ _ _ hnodup)))
      · exact List.mem_filter.mpr ⟨he, by simpa using hle⟩
    · intro hmem
      have := List.of_mem_filter hmem
      simp only [Bool.not_eq_true', decide_eq_false_iff_not] at this
      exact this hle
  · rw [alGet_clear_foldl_of_ne]
    · rw [alGet_alInsert]
    · intro e he
      exact hpaths e (List.mem_filter.mp he).1

/-- C8 witness: `save_snapshot` on the two-segment store `c8Store` with
base snapshot at index 5 drops the covered segment and writes the
snapshot file. -/
theorem C8_save_snapshot_witness :
    (∀ e ∈ (c8Store.save_snapshot c8BaseSnap [9]).segments,
      c8BaseSnap.index < e.2.end_index) ∧
    (∀ e ∈ c8Store.segments, e.2.end_index ≤ c8BaseSnap.index →
      alGet (c8Store.save_snapshot c8BaseSnap [9]).files e.2.path = none ∧
      e ∉ (c8Store.save_snapshot c8BaseSnap [9]).segments) ∧
    alGet (c8Store.save_snapshot c8BaseSnap [9]).files "snapshot" =
      some (SnapshotM.write_to_bytes ⟨c8BaseSnap.index, c8BaseSnap.term, [9]⟩) :=
  C8_save_snapshot_spec c8Store c8BaseSnap [9] (by decide) (by decide)

theorem alGet_alPush {κ α : Type} [DecidableEq κ] (m : List (κ × List α)) (k : κ) (v : α) :
    alGet (alPush m k v) k = some ((alGet m k).getD [] ++ [v]) := by
  unfold alPush
  cases h : alGet m k with
  | some vs =>
      simpa [h] using alGet_alReplace_of_isSome (vs ++ [v]) (by simp [h])
  | none =>
      rw [alGet_append, h]
      simp [alGet]

/-- The matching loop never changes the taker's identity fields: id,
price, side and order type survive `match_market_order`. -/
theorem matchMarketGo_taker (env : Env) (fuel : ℕ) (ob : OrderBook) (order : Order)
    (cnt : ℕ) (trades : List Trade) :
    (matchMarketGo env fuel ob order cnt trades).2.1.id = order.id ∧
    (matchMarketGo env fuel ob order cnt trades).2.1.price = order.price ∧
    (matchMarketGo env fuel ob order cnt trades).2.1.side = order.side ∧
    (matchMarketGo env fuel ob order cnt trades).2.1.order_type = order.order_type := by
  induction fuel generalizing ob order cnt trades with
  | zero => exact ⟨rfl, rfl, rfl, rfl⟩
  | succ n ih =>
      rw [matchMarketGo]
      split
      · exact ⟨rfl, rfl, rfl, rfl⟩
      · split
        · exact ⟨rfl, rfl, rfl, rfl⟩
        · split
          · exact ⟨rfl, rfl, rfl, rfl⟩
          · exact ⟨rfl, rfl, rfl, rfl⟩
          · rename_i matching_order rest
            have aux : ∀ (ob' : OrderBook) (cnt' : ℕ) (trades' : List Trade) (tq : Dec),
                (matchMarketGo env n ob' (Order.update_status { order with filled_quantity := Dec.add order.filled_quantity tq } env.now) cnt' trades').2.1.id = order.id ∧
                (matchMarketGo env n ob' (Order.update_status { order with filled_quantity := Dec.add order.filled_quantity tq } env.now) cnt' trades').2.1.price = order.price ∧
                (matchMarketGo env n ob' (Order.update_status { order with filled_quantity := Dec.add order.filled_quantity tq } env.now) cnt' trades').2.1.side = order.side ∧
                (matchMarketGo env n ob' (Order.update_status { order with filled_quantity := Dec.add order.filled_quantity tq } env.now) cnt' trades').2.1.order_type = order.order_type := by
              intro ob' cnt' trades' tq
              obtain ⟨h1, h2, h3, h4⟩ := ih ob'
                (Order.update_status { order with filled_quantity := Dec.add order.filled_quantity tq } env.now) cnt' trades'
              rw [h1, h2, h3, h4]
              refine ⟨?_, ?_, ?_, ?_⟩ <;> simp
            dsimp only
            repeat' split
            all_goals exact aux _ _ _ _

/-- C4 amended: an unfilled market remainder is not discarded —
`Matcher::place_order` inserts any taker that is not fully filled after
matching into the book at its price, market orders included: the
post-matching taker rests in the level keyed by its price on its own
side's ladder. -/
theorem C4_amended (env : Env) (m : Matcher) (order : Order) (cnt : ℕ)
    (hty : order.order_type = OrderType.Market)
    (hnf : (matchMarket env m.orderbook order cnt []).2.1.is_filled = false) :
    ∃ level, alGet ((m.place_order env order cnt).1.orderbook.sideMap order.side)
        order.price = some level ∧
      (matchMarket env m.orderbook order cnt []).2.1 ∈ level := by
  obtain ⟨h1, h2, h3, h4⟩ := matchMarketGo_taker env
    (2 * oppCount (m.orderbook.oppMap order.side) + 1) m.orderbook order cnt []
  unfold Matcher.place_order
  rw [hty]
  dsimp only
  rw [hnf]
  simp only [Bool.false_eq_true, if_false]
  unfold OrderBook.add_order
  dsimp only
  unfold matchMarket at hnf ⊢
  rw [h3]
  cases hs : order.side with
  | Buy =>
      rw [hs] at h1 h2 h3 h4
      dsimp only [OrderBook.sideMap]
      rw [h2]
      rw [alGet_alPush]
      exact ⟨_, rfl, List.mem_append_right _ (List.mem_singleton.mpr rfl)⟩
  | Sell =>
      rw [hs] at h1 h2 h3 h4
      dsimp only [OrderBook.sideMap]
      rw [h2]
      rw [alGet_alPush]
      exact ⟨_, rfl, List.mem_append_right _ (List.mem_singleton.mpr rfl)⟩

/-- C4 amended witness: the market buy `c4Order` on a fresh book. -/
theorem C4_amended_witness :
    ∃ level, alGet (((Matcher.new "S").place_order envZero c4Order 0).1.orderbook.sideMap
        c4Order.side) c4Order.price = some level ∧
      (matchMarket envZero (Matcher.new "S").orderbook c4Order 0 []).2.1 ∈ level :=
  C4_amended envZero (Matcher.new "S") c4Order 0 (by decide) (by decide)

/-- C10 amended: `MatchEngine::on_message` returns normally on every
payload that fails to decode and on every decoded command carrying the
field its variant unwraps (validation failures only log); a decodable
order command with `order: None` or symbol command with `symbol: None`
panics instead, so apply is not total. -/
theorem C10_amended (env : Env) (eng : MatchEngine) (index : ℕ) (data : List ℕ)
    (cnt : ℕ) (h : cmdFieldsPresent (deserializeMatchCmd data) = true) :
    (MatchEngine.on_message env eng index data cnt).isSome = true := by
  unfold MatchEngine.on_message MatchEngine.on_message_cmd
  cases hd : deserializeMatchCmd data with
  | none => simp
  | some cmd =>
      rw [hd] at h
      unfold cmdFieldsPresent at h
      obtain ⟨c, o, sy⟩ := cmd
      cases c <;> cases o <;> cases sy <;> simp_all

/-- C10 amended witness: the `CreateSymbol` payload decodes with its
symbol present and applies normally. -/
theorem C10_amended_witness :
    cmdFieldsPresent (deserializeMatchCmd createSBytes) = true ∧
    (MatchEngine.on_message envZero MatchEngine.new 1 createSBytes 0).isSome = true :=
  ⟨by decide, C10_amended envZero MatchEngine.new 1 createSBytes 0 (by decide)⟩

/-! ## Ladder lemmas for the matching-loop invariants -/

theorem Dec.add_eq (a b : Dec) : Dec.add a b = a + b :=
  (Rat.add_def' a b).symm

theorem Dec.sub_eq (a b : Dec) : Dec.sub a b = a - b :=
  (Rat.sub_def' a b).symm

theorem rem_pos_of_not_filled {o : Order} (h : o.is_filled = false) :
    0 < o.remaining_quantity := by
  unfold Order.is_filled at h
  unfold Order.remaining_quantity
  rw [Dec.sub_eq]
  simp only [decide_eq_false_iff_not, not_le] at h
  linarith

theorem allResting_eq (ob : OrderBook) :
    allResting ob = levelOrders ob.bids ++ levelOrders ob.asks := rfl

theorem levelOrders_cons (k : Dec) (v : List Order) (m : List (Dec × List Order)) :
    levelOrders ((k, v) :: m) = v ++ levelOrders m := by
  simp [levelOrders]

theorem mem_levelOrders_of_mem {m : List (Dec × List Order)} {e : Dec × List Order}
    {o : Order} (he : e ∈ m) (ho : o ∈ e.2) : o ∈ levelOrders m := by
  unfold levelOrders
  rw [List.mem_flatten]
  exact ⟨e.2, List.mem_map_of_mem Prod.snd he, ho⟩

theorem levelOrders_alReplace {m : List (Dec × List Order)} {k : Dec}
    {v : List Order} (v' : List Order) (h : alGet m k = some v) :
    ∃ A B, levelOrders m = A ++ v ++ B ∧
      levelOrders (alReplace m k v') = A ++ v' ++ B := by
  induction m with
  | nil => simp [alGet] at h
  | cons e rest ih =>
      obtain ⟨k0, w⟩ := e
      by_cases hk : k0 = k
      · subst hk
        simp [alGet] at h
        subst h
        refine ⟨[], levelOrders rest, by simp [levelOrders_cons], ?_⟩
        simp only [alReplace, if_pos rfl]
        simp [levelOrders_cons]
      · simp only [alGet, if_neg hk] at h
        obtain ⟨A, B, h1, h2⟩ := ih h
        refine ⟨w ++ A, B, ?_, ?_⟩
        · rw [levelOrders_cons, h1]
          simp [List.append_assoc]
        · simp only [alReplace, if_neg hk]
          rw [levelOrders_cons, h2]
          simp [List.append_assoc]

theorem levelOrders_alRemove {m : List (Dec × List Order)} {k : Dec}
    {v : List Order} (h : alGet m k = some v) :
    ∃ A B, levelOrders m = A ++ v ++ B ∧
      levelOrders (alRemove m k) = A ++ B := by
  induction m with
  | nil => simp [alGet] at h
  | cons e rest ih =>
      obtain ⟨k0, w⟩ := e
      by_cases hk : k0 = k
      · subst hk
        simp [alGet] at h
        subst h
        refine ⟨[], levelOrders rest, by simp [levelOrders_cons], ?_⟩
        simp only [alRemove, if_pos rfl]
        simp
      · simp only [alGet, if_neg hk] at h
        obtain ⟨A, B, h1, h2⟩ := ih h
        refine ⟨w ++ A, B, ?_, ?_⟩
        · rw [levelOrders_cons, h1]
          simp [List.append_assoc]
        · simp only [alRemove, if_neg hk]
          rw [levelOrders_cons, h2]
          simp [List.append_assoc]

theorem levelOrders_alPush (m : List (Dec × List Order)) (k : Dec) (o : Order) :
    ∃ A B, levelOrders m = A ++ B ∧
      levelOrders (alPush m k o) = A ++ [o] ++ B := by
  unfold alPush
  cases h : alGet m k with
  | some vs =>
      obtain ⟨A, B, h1, h2⟩ := levelOrders_alReplace (vs ++ [o]) h
      exact ⟨A ++ vs, B, by simp [h1, List.append_assoc],
        by simp [h2, List.append_assoc]⟩
  | none =>
      refine ⟨levelOrders m, [], by simp, ?_⟩
      unfold levelOrders
      simp

theorem ladderOk_oppMap {ob : OrderBook} (s : OrderSide) (h : LevelsOk ob) :
    LadderOk (oppSide s) (ob.oppMap s) := by
  cases s
  · exact h.2
  · exact h.1

theorem ladderOk_sideMap {ob : OrderBook} (s : OrderSide) (h : LevelsOk ob) :
    LadderOk s (ob.sideMap s) := by
  cases s
  · exact h.1
  · exact h.2

theorem levelsOk_setOpp {ob : OrderBook} {s : OrderSide}
    {X : List (Dec × List Order)} (hok : LevelsOk ob)
    (hx : LadderOk (oppSide s) X) : LevelsOk (ob.setOpp s X) := by
  cases s
  · exact ⟨hok.1, hx⟩
  · exact ⟨hx, hok.2⟩

@[simp] theorem setOpp_orders_by_id (ob : OrderBook) (s : OrderSide)
    (X : List (Dec × List Order)) :
    (ob.setOpp s X).orders_by_id = ob.orders_by_id := by
  cases s <;> rfl

@[simp] theorem setOpp_symbol (ob : OrderBook) (s : OrderSide)
    (X : List (Dec × List Order)) : (ob.setOpp s X).symbol = ob.symbol := by
  cases s <;> rfl

@[simp] theorem sideMap_setOpp (ob : OrderBook) (s : OrderSide)
    (X : List (Dec × List Order)) : (ob.setOpp s X).sideMap s = ob.sideMap s := by
  cases s <;> rfl

theorem ladderOk_alRemove {s : OrderSide} {m : List (Dec × List Order)} (k : Dec)
    (h : LadderOk s m) : LadderOk s (alRemove m k) :=
  fun e he => h e (mem_alRemove he)

theorem ladderOk_alReplace {s : OrderSide} {m : List (Dec × List Order)} {k : Dec}
    {v' : List Order} (h : LadderOk s m) (hne : v' ≠ [])
    (hv' : ∀ o ∈ v', o.price = k ∧ o.side = s ∧ 0 < o.remaining_quantity) :
    LadderOk s (alReplace m k v') := by
  intro e he
  rcases mem_alReplace he with he | he
  · exact h e he
  · subst he
    exact ⟨hne, hv'⟩

theorem ladderOk_alPush {s : OrderSide} {m : List (Dec × List Order)} {o : Order}
    (h : LadderOk s m) (hp : o.side = s) (hr : 0 < o.remaining_quantity) :
    LadderOk s (alPush m o.price o) := by
  intro e he
  unfold alPush at he
  cases hg : alGet m o.price with
  | some vs =>
      rw [hg] at he
      rcases mem_alReplace he with he | he
      · exact h e he
      · subst he
        obtain ⟨hvne, hvs⟩ := h _ (alGet_mem hg)
        refine ⟨by simp, ?_⟩
        intro x hx
        rcases List.mem_append.mp hx with hx | hx
        · exact hvs x hx
        · rw [List.mem_singleton] at hx
          subst hx
          exact ⟨rfl, hp, hr⟩
  | none =>
      rw [hg] at he
      rcases List.mem_append.mp he with he | he
      · exact h e he
      · rw [List.mem_singleton] at he
        subst he
        refine ⟨by simp, ?_⟩
        intro x hx
        rw [List.mem_singleton] at hx
        subst hx
        exact ⟨rfl, hp, hr⟩

/-! ## Transfer, trade and id-count lemmas -/

theorem transfer_self (l : List Order) : Transfer l l :=
  fun o' h => ⟨o', h, rfl, rfl, rfl⟩

theorem transfer_trans {a b c : List Order} (h1 : Transfer a b) (h2 : Transfer b c) :
    Transfer a c := by
  intro o' ho'
  obtain ⟨o₁, ho₁, e1, e2, e3⟩ := h2 o' ho'
  obtain ⟨o₀, ho₀, f1, f2, f3⟩ := h1 o₁ ho₁
  exact ⟨o₀, ho₀, e1.trans f1, e2.trans f2, e3.trans f3⟩

theorem tradeFromLadder_mono {s : OrderSide} {tid : String} {old new : List Order}
    {t : Trade} (h : Transfer old new) (ht : TradeFromLadder s tid new t) :
    TradeFromLadder s tid old t := by
  obtain ⟨hq, o, ho, hp, hb, hs⟩ := ht
  obtain ⟨o₀, ho₀, e1, e2, e3⟩ := h o ho
  refine ⟨hq, o₀, ho₀, hp.trans e2, ?_, ?_⟩
  · intro hbs
    obtain ⟨x, y⟩ := hb hbs
    exact ⟨x, y.trans e1⟩
  · intro hss
    obtain ⟨x, y⟩ := hs hss
    exact ⟨x, y.trans e1⟩

theorem idCount_append (a b : List Order) (i : String) :
    idCount (a ++ b) i = idCount a i + idCount b i := by
  simp [idCount, List.filter_append]

theorem idCount_cons (o : Order) (l : List Order) (i : String) :
    idCount (o :: l) i = (if o.id = i then 1 else 0) + idCount l i := by
  simp only [idCount, List.filter_cons]
  by_cases h : o.id = i
  · simp [h, Nat.add_comm]
  · simp [h]

theorem idCount_le_of_sublist {l1 l2 : List Order} (h : l1.Sublist l2) (i : String) :
    idCount l1 i ≤ idCount l2 i :=
  List.Sublist.length_le (h.filter _)

theorem idCount_eq_zero {l : List Order} {i : String} (h : idCount l i = 0) :
    ∀ o ∈ l, o.id ≠ i := by
  intro o ho hid
  have : o ∈ l.filter (fun o => decide (o.id = i)) :=
    List.mem_filter.mpr ⟨ho, by simp [hid]⟩
  rw [List.length_eq_zero.mp h] at this
  exact absurd this (List.not_mem_nil o)

theorem exists_level_of_mem {m : List (Dec × List Order)} {o : Order}
    (h : o ∈ levelOrders m) : ∃ e ∈ m, o ∈ e.2 := by
  unfold levelOrders at h
  rw [List.mem_flatten] at h
  obtain ⟨l, hl, ho⟩ := h
  rw [List.mem_map] at hl
  obtain ⟨e, he, rfl⟩ := hl
  exact ⟨e, he, ho⟩

theorem side_of_mem_levelOrders {s : OrderSide} {m : List (Dec × List Order)}
    (hlad : LadderOk s m) {o : Order} (ho : o ∈ levelOrders m) : o.side = s := by
  obtain ⟨e, he, hoe⟩ := exists_level_of_mem ho
  exact ((hlad e he).2 o hoe).2.1

theorem price_key_of_mem_levelOrders {s : OrderSide} {m : List (Dec × List Order)}
    (hlad : LadderOk s m) {o : Order} (ho : o ∈ levelOrders m) :
    o.price ∈ m.map Prod.fst := by
  obtain ⟨e, he, hoe⟩ := exists_level_of_mem ho
  rw [((hlad e he).2 o hoe).1]
  exact List.mem_map_of_mem Prod.fst he

/-- Composing the matching-loop invariant across one step: the step takes
`ob` to `ob₁` emitting `tr₁`, the rest of the loop takes `ob₁` to `res`
emitting `tr₂`, and the taker keeps its side and id. -/
theorem mm_comp {ob ob₁ res : OrderBook} {order o₁ : Order}
    {trades tr₁ tr₂ : List Trade}
    (hσ : o₁.side = order.side) (hι : o₁.id = order.id)
    (s2 : ob₁.orders_by_id = ob.orders_by_id)
    (s3 : ob₁.symbol = ob.symbol)
    (s4 : ob₁.sideMap order.side = ob.sideMap order.side)
    (s5 : Transfer (levelOrders (ob.oppMap order.side))
      (levelOrders (ob₁.oppMap order.side)))
    (s6 : ∀ i, idCount (levelOrders (ob₁.oppMap order.side)) i ≤
      idCount (levelOrders (ob.oppMap order.side)) i)
    (s7 : ((ob₁.oppMap order.side).map Prod.fst).Sublist
      ((ob.oppMap order.side).map Prod.fst))
    (s8 : ∀ t ∈ tr₁, t ∈ trades ∨
      TradeFromLadder order.side order.id (levelOrders (ob.oppMap order.side)) t)
    (i1 : LevelsOk res)
    (i2 : res.orders_by_id = ob₁.orders_by_id)
    (i3 : res.symbol = ob₁.symbol)
    (i4 : res.sideMap o₁.side = ob₁.sideMap o₁.side)
    (i5 : Transfer (levelOrders (ob₁.oppMap o₁.side))
      (levelOrders (res.oppMap o₁.side)))
    (i6 : ∀ i, idCount (levelOrders (res.oppMap o₁.side)) i ≤
      idCount (levelOrders (ob₁.oppMap o₁.side)) i)
    (i7 : ((res.oppMap o₁.side).map Prod.fst).Sublist
      ((ob₁.oppMap o₁.side).map Prod.fst))
    (i8 : ∀ t ∈ tr₂, t ∈ tr₁ ∨
      TradeFromLadder o₁.side o₁.id (levelOrders (ob₁.oppMap o₁.side)) t) :
    LevelsOk res ∧
    res.orders_by_id = ob.orders_by_id ∧
    res.symbol = ob.symbol ∧
    res.sideMap order.side = ob.sideMap order.side ∧
    Transfer (levelOrders (ob.oppMap order.side)) (levelOrders (res.oppMap order.side)) ∧
    (∀ i, idCount (levelOrders (res.oppMap order.side)) i ≤
      idCount (levelOrders (ob.oppMap order.side)) i) ∧
    ((res.oppMap order.side).map Prod.fst).Sublist ((ob.oppMap order.side).map Prod.fst) ∧
    ∀ t ∈ tr₂, t ∈ trades ∨
      TradeFromLadder order.side order.id (levelOrders (ob.oppMap order.side)) t := by
  rw [hσ] at i4 i5 i6 i7 i8
  rw [hι] at i8
  refine ⟨i1, i2.trans s2, i3.trans s3, i4.trans s4, transfer_trans s5 i5,
    fun i => le_trans (i6 i) (s6 i), i7.trans s7, ?_⟩
  intro t ht
  rcases i8 t ht with h | h
  · exact s8 t h
  · exact Or.inr (tradeFromLadder_mono s5 h)

/-! ## The matching-loop invariant -/

/-- Invariant of `Matcher::match_market_order`'s loop: ladder
well-formedness is preserved, the id index, the symbol and the taker
side's ladder are untouched, the opposing ladder only loses or mutates
makers (never gains one, and never gains copies of an id), and every
emitted trade is struck at some original maker's resting price with
positive quantity, carrying the taker's id on the aggressive leg and the
maker's id on the passive leg. -/
theorem matchMarketGo_inv (env : Env) (fuel : ℕ) (ob : OrderBook) (order : Order)
    (cnt : ℕ) (trades : List Trade) (hok : LevelsOk ob) :
    LevelsOk (matchMarketGo env fuel ob order cnt trades).1 ∧
    (matchMarketGo env fuel ob order cnt trades).1.orders_by_id = ob.orders_by_id ∧
    (matchMarketGo env fuel ob order cnt trades).1.symbol = ob.symbol ∧
    (matchMarketGo env fuel ob order cnt trades).1.sideMap order.side =
      ob.sideMap order.side ∧
    Transfer (levelOrders (ob.oppMap order.side))
      (levelOrders ((matchMarketGo env fuel ob order cnt trades).1.oppMap order.side)) ∧
    (∀ i, idCount
        (levelOrders ((matchMarketGo env fuel ob order cnt trades).1.oppMap order.side)) i ≤
      idCount (levelOrders (ob.oppMap order.side)) i) ∧
    (((matchMarketGo env fuel ob order cnt trades).1.oppMap order.side).map Prod.fst).Sublist
      ((ob.oppMap order.side).map Prod.fst) ∧
    ∀ t ∈ (matchMarketGo env fuel ob order cnt trades).2.2.1, t ∈ trades ∨
      TradeFromLadder order.side order.id (levelOrders (ob.oppMap order.side)) t := by
  induction fuel generalizing ob order cnt trades with
  | zero =>
      exact ⟨hok, rfl, rfl, rfl, transfer_self _, fun i => le_refl _,
        List.Sublist.refl _, fun t ht => Or.inl ht⟩
  | succ n ih =>
      rw [matchMarketGo]
      split
      · exact ⟨hok, rfl, rfl, rfl, transfer_self _, fun i => le_refl _,
          List.Sublist.refl _, fun t ht => Or.inl ht⟩
      · split
        · exact ⟨hok, rfl, rfl, rfl, transfer_self _, fun i => le_refl _,
            List.Sublist.refl _, fun t ht => Or.inl ht⟩
        · split
          · exact ⟨hok, rfl, rfl, rfl, transfer_self _, fun i => le_refl _,
              List.Sublist.refl _, fun t ht => Or.inl ht⟩
          · exact ⟨hok, rfl, rfl, rfl, transfer_self _, fun i => le_refl _,
              List.Sublist.refl _, fun t ht => Or.inl ht⟩
          · rename_i hfil hb price hbest hl matching_order rest hlvl
            have hof : order.is_filled = false := by simpa using hfil
            have hto : 0 < order.remaining_quantity := rem_pos_of_not_filled hof
            have hlad := ladderOk_oppMap order.side hok
            have hmem := alGet_mem hlvl
            have hlev := hlad _ hmem
            have hmo := hlev.2 matching_order (List.mem_cons_self _ _)
            have hrest : ∀ o ∈ rest, o.price = price ∧ o.side = oppSide order.side ∧
                0 < o.remaining_quantity :=
              fun o ho => hlev.2 o (List.mem_cons_of_mem _ ho)
            have htrade : TradeFromLadder order.side order.id
                (levelOrders (ob.oppMap order.side))
                (Trade.new (env.uuid cnt) order.symbol price
                  (min order.remaining_quantity matching_order.remaining_quantity)
                  (if order.side = OrderSide.Buy then order.id else matching_order.id)
                  (if order.side = OrderSide.Buy then matching_order.id else order.id)
                  env.now) := by
              refine ⟨lt_min hto hmo.2.2, matching_order,
                mem_levelOrders_of_mem hmem (List.mem_cons_self _ _), hmo.1.symm, ?_, ?_⟩
              · intro hs
                constructor <;> simp [Trade.new, hs]
              · intro hs
                constructor <;> simp [Trade.new, hs]
            have main : ∀ (X : List (Dec × List Order)) (o₁ : Order) (cnt' : ℕ)
                (tr : Trade),
                o₁.side = order.side → o₁.id = order.id →
                LadderOk (oppSide order.side) X →
                ((X.map Prod.fst).Sublist ((ob.oppMap order.side).map Prod.fst)) →
                Transfer (levelOrders (ob.oppMap order.side)) (levelOrders X) →
                (∀ i, idCount (levelOrders X) i ≤
                  idCount (levelOrders (ob.oppMap order.side)) i) →
                TradeFromLadder order.side order.id
                  (levelOrders (ob.oppMap order.side)) tr →
                (LevelsOk (matchMarketGo env n (ob.setOpp order.side X) o₁ cnt'
                    (trades ++ [tr])).1 ∧
                (matchMarketGo env n (ob.setOpp order.side X) o₁ cnt'
                    (trades ++ [tr])).1.orders_by_id = ob.orders_by_id ∧
                (matchMarketGo env n (ob.setOpp order.side X) o₁ cnt'
                    (trades ++ [tr])).1.symbol = ob.symbol ∧
                (matchMarketGo env n (ob.setOpp order.side X) o₁ cnt'
                    (trades ++ [tr])).1.sideMap order.side = ob.sideMap order.side ∧
                Transfer (levelOrders (ob.oppMap order.side))
                  (levelOrders ((matchMarketGo env n (ob.setOpp order.side X) o₁ cnt'
                    (trades ++ [tr])).1.oppMap order.side)) ∧
                (∀ i, idCount
                    (levelOrders ((matchMarketGo env n (ob.setOpp order.side X) o₁ cnt'
                      (trades ++ [tr])).1.oppMap order.side)) i ≤
                  idCount (levelOrders (ob.oppMap order.side)) i) ∧
                (((matchMarketGo env n (ob.setOpp order.side X) o₁ cnt'
                    (trades ++ [tr])).1.oppMap order.side).map Prod.fst).Sublist
                  ((ob.oppMap order.side).map Prod.fst) ∧
                ∀ t ∈ (matchMarketGo env n (ob.setOpp order.side X) o₁ cnt'
                    (trades ++ [tr])).2.2.1, t ∈ trades ∨
                  TradeFromLadder order.side order.id
                    (levelOrders (ob.oppMap order.side)) t) := by
              intro X o₁ cnt' tr hσ hι hX hkeys htr hcnt htp
              obtain ⟨i1, i2, i3, i4, i5, i6, i7, i8⟩ :=
                ih (ob.setOpp order.side X) o₁ cnt' (trades ++ [tr])
                  (levelsOk_setOpp hok hX)
              refine mm_comp hσ hι ?_ ?_ ?_ ?_ ?_ ?_ ?_ i1 i2 i3 i4 i5 i6 i7 i8
              · simp
              · simp
              · simp
              · rw [OrderBook.oppMap_setOpp]
                exact htr
              · intro i
                rw [OrderBook.oppMap_setOpp]
                exact hcnt i
              · rw [OrderBook.oppMap_setOpp]
                exact hkeys
              · intro t ht
                rcases List.mem_append.mp ht with h | h
                · exact Or.inl h
                · rw [List.mem_singleton] at h
                  subst h
                  exact Or.inr htp
            dsimp only
            split
            · split
              · -- maker filled, its level emptied: the level is removed
                obtain ⟨A, B, hAB, hrm⟩ := levelOrders_alRemove hlvl
                refine main _ _ _ _ (by simp) (by simp)
                  (ladderOk_alRemove price hlad) (map_fst_alRemove_sublist _ _)
                  ?_ ?_ htrade
                · intro o' ho'
                  rw [hrm] at ho'
                  refine ⟨o', ?_, rfl, rfl, rfl⟩
                  rw [hAB]
                  simp only [List.mem_append] at ho' ⊢
                  tauto
                · intro i
                  rw [hrm, hAB]
                  simp only [idCount_append]
                  omega
              · -- maker filled, siblings remain: the maker alone is dropped
                rename_i hre
                have hne : rest ≠ [] := fun h => hre (by simp [h])
                obtain ⟨A, B, hAB, hrp⟩ := levelOrders_alReplace rest hlvl
                refine main _ _ _ _ (by simp) (by simp)
                  (ladderOk_alReplace hlad hne hrest) ?_ ?_ ?_ htrade
                · rw [map_fst_alReplace]
                · intro o' ho'
                  rw [hrp] at ho'
                  refine ⟨o', ?_, rfl, rfl, rfl⟩
                  rw [hAB]
                  simp only [List.mem_append, List.mem_cons] at ho' ⊢
                  tauto
                · intro i
                  rw [hrp, hAB]
                  simp only [idCount_append, idCount_cons]
                  omega
            · -- maker partially filled: replaced in place with its new fill
              rename_i hnm
              obtain ⟨mo', hgm⟩ : ∃ x, Order.update_status { matching_order with filled_quantity := Dec.add matching_order.filled_quantity (min order.remaining_quantity matching_order.remaining_quantity) } env.now = x := ⟨_, rfl⟩
              rw [hgm] at hnm ⊢
              have hmo'id : mo'.id = matching_order.id := by
                rw [← hgm]; simp
              have hmo'p : mo'.price = matching_order.price := by
                rw [← hgm]; simp
              have hmo's : mo'.side = matching_order.side := by
                rw [← hgm]; simp
              have hmo'r : 0 < mo'.remaining_quantity :=
                rem_pos_of_not_filled (by simpa using hnm)
              obtain ⟨A, B, hAB, hrp⟩ := levelOrders_alReplace (mo' :: rest) hlvl
              refine main _ _ _ _ (by simp) (by simp) ?_ ?_ ?_ ?_ htrade
              · refine ladderOk_alReplace hlad (by simp) ?_
                intro o ho
                rcases List.mem_cons.mp ho with h | h
                · subst h
                  exact ⟨hmo'p.trans hmo.1, hmo's.trans hmo.2.1, hmo'r⟩
                · exact hrest o h
              · rw [map_fst_alReplace]
              · intro o' ho'
                rw [hrp] at ho'
                rcases List.mem_append.mp ho' with h | h
                · rcases List.mem_append.mp h with h | h
                  · exact ⟨o', by rw [hAB]; exact List.mem_append.mpr (Or.inl
                      (List.mem_append.mpr (Or.inl h))), rfl, rfl, rfl⟩
                  · rcases List.mem_cons.mp h with h | h
                    · subst h
                      exact ⟨matching_order,
                        mem_levelOrders_of_mem hmem (List.mem_cons_self _ _),
                        hmo'id, hmo'p, hmo's⟩
                    · exact ⟨o', by rw [hAB]; exact List.mem_append.mpr (Or.inl
                        (List.mem_append.mpr (Or.inr (List.mem_cons_of_mem _ h)))),
                        rfl, rfl, rfl⟩
                · exact ⟨o', by rw [hAB]; exact List.mem_append.mpr (Or.inr h),
                    rfl, rfl, rfl⟩
              · intro i
                rw [hrp, hAB]
                simp only [idCount_append, idCount_cons, hmo'id]
                exact le_rfl

/-- The matching-loop invariant at `matchMarket`'s entry fuel. -/
theorem matchMarket_inv (env : Env) (ob : OrderBook) (order : Order)
    (cnt : ℕ) (trades : List Trade) (hok : LevelsOk ob) :
    LevelsOk (matchMarket env ob order cnt trades).1 ∧
    (matchMarket env ob order cnt trades).1.orders_by_id = ob.orders_by_id ∧
    (matchMarket env ob order cnt trades).1.symbol = ob.symbol ∧
    (matchMarket env ob order cnt trades).1.sideMap order.side = ob.sideMap order.side ∧
    Transfer (levelOrders (ob.oppMap order.side))
      (levelOrders ((matchMarket env ob order cnt trades).1.oppMap order.side)) ∧
    (∀ i, idCount
        (levelOrders ((matchMarket env ob order cnt trades).1.oppMap order.side)) i ≤
      idCount (levelOrders (ob.oppMap order.side)) i) ∧
    (((matchMarket env ob order cnt trades).1.oppMap order.side).map Prod.fst).Sublist
      ((ob.oppMap order.side).map Prod.fst) ∧
    ∀ t ∈ (matchMarket env ob order cnt trades).2.2.1, t ∈ trades ∨
      TradeFromLadder order.side order.id (levelOrders (ob.oppMap order.side)) t :=
  matchMarketGo_inv env (2 * oppCount (ob.oppMap order.side) + 1) ob order cnt trades hok

/-- `matchMarket` preserves the taker's identifying fields. -/
theorem matchMarket_taker (env : Env) (ob : OrderBook) (order : Order)
    (cnt : ℕ) (trades : List Trade) :
    (matchMarket env ob order cnt trades).2.1.id = order.id ∧
    (matchMarket env ob order cnt trades).2.1.price = order.price ∧
    (matchMarket env ob order cnt trades).2.1.side = order.side ∧
    (matchMarket env ob order cnt trades).2.1.order_type = order.order_type :=
  matchMarketGo_taker env (2 * oppCount (ob.oppMap order.side) + 1) ob order cnt trades

/-- The limit loop also preserves the taker's identifying fields. -/
theorem matchLimitGo_taker (env : Env) (fuel : ℕ) (ob : OrderBook) (order : Order)
    (cnt : ℕ) (trades : List Trade) :
    (matchLimitGo env fuel ob order cnt trades).2.1.id = order.id ∧
    (matchLimitGo env fuel ob order cnt trades).2.1.price = order.price ∧
    (matchLimitGo env fuel ob order cnt trades).2.1.side = order.side ∧
    (matchLimitGo env fuel ob order cnt trades).2.1.order_type = order.order_type := by
  induction fuel generalizing ob order cnt trades with
  | zero => exact ⟨rfl, rfl, rfl, rfl⟩
  | succ n ih =>
      rw [matchLimitGo]
      split
      · exact ⟨rfl, rfl, rfl, rfl⟩
      · dsimp only
        split
        · obtain ⟨t1, t2, t3, t4⟩ := matchMarket_taker env ob order cnt trades
          obtain ⟨i1, i2, i3, i4⟩ := ih (matchMarket env ob order cnt trades).1
            (matchMarket env ob order cnt trades).2.1
            (matchMarket env ob order cnt trades).2.2.2
            (matchMarket env ob order cnt trades).2.2.1
          exact ⟨i1.trans t1, i2.trans t2, i3.trans t3, i4.trans t4⟩
        · exact ⟨rfl, rfl, rfl, rfl⟩

/-- Invariant of `Matcher::match_limit_order`'s loop (which re-checks the
crossing condition and delegates each round to the market path). -/
theorem matchLimitGo_inv (env : Env) (fuel : ℕ) (ob : OrderBook) (order : Order)
    (cnt : ℕ) (trades : List Trade) (hok : LevelsOk ob) :
    LevelsOk (matchLimitGo env fuel ob order cnt trades).1 ∧
    (matchLimitGo env fuel ob order cnt trades).1.orders_by_id = ob.orders_by_id ∧
    (matchLimitGo env fuel ob order cnt trades).1.symbol = ob.symbol ∧
    (matchLimitGo env fuel ob order cnt trades).1.sideMap order.side =
      ob.sideMap order.side ∧
    Transfer (levelOrders (ob.oppMap order.side))
      (levelOrders ((matchLimitGo env fuel ob order cnt trades).1.oppMap order.side)) ∧
    (∀ i, idCount
        (levelOrders ((matchLimitGo env fuel ob order cnt trades).1.oppMap order.side)) i ≤
      idCount (levelOrders (ob.oppMap order.side)) i) ∧
    (((matchLimitGo env fuel ob order cnt trades).1.oppMap order.side).map Prod.fst).Sublist
      ((ob.oppMap order.side).map Prod.fst) ∧
    ∀ t ∈ (matchLimitGo env fuel ob order cnt trades).2.2.1, t ∈ trades ∨
      TradeFromLadder order.side order.id (levelOrders (ob.oppMap order.side)) t := by
  induction fuel generalizing ob order cnt trades with
  | zero =>
      exact ⟨hok, rfl, rfl, rfl, transfer_self _, fun i => le_refl _,
        List.Sublist.refl _, fun t ht => Or.inl ht⟩
  | succ n ih =>
      rw [matchLimitGo]
      split
      · exact ⟨hok, rfl, rfl, rfl, transfer_self _, fun i => le_refl _,
          List.Sublist.refl _, fun t ht => Or.inl ht⟩
      · dsimp only
        split
        · obtain ⟨m1, m2, m3, m4, m5, m6, m7, m8⟩ :=
            matchMarket_inv env ob order cnt trades hok
          obtain ⟨t1, t2, t3, t4⟩ := matchMarket_taker env ob order cnt trades
          obtain ⟨i1, i2, i3, i4, i5, i6, i7, i8⟩ :=
            ih (matchMarket env ob order cnt trades).1
              (matchMarket env ob order cnt trades).2.1
              (matchMarket env ob order cnt trades).2.2.2
              (matchMarket env ob order cnt trades).2.2.1 m1
          exact mm_comp t3 t1 m2 m3 m4 m5 m6 m7 m8 i1 i2 i3 i4 i5 i6 i7 i8
        · exact ⟨hok, rfl, rfl, rfl, transfer_self _, fun i => le_refl _,
            List.Sublist.refl _, fun t ht => Or.inl ht⟩

/-! ## Book-level preservation: place, cancel, runOps -/

theorem mem_allResting_of_opp {ob : OrderBook} {s : OrderSide} {o : Order}
    (h : o ∈ levelOrders (ob.oppMap s)) : o ∈ allResting ob := by
  cases s
  · exact List.mem_append.mpr (Or.inr h)
  · exact List.mem_append.mpr (Or.inl h)

theorem tradeFromLadder_allResting {ob : OrderBook} {s : OrderSide} {tid : String}
    {t : Trade} (h : TradeFromLadder s tid (levelOrders (ob.oppMap s)) t) :
    0 < t.quantity ∧ ∃ o ∈ allResting ob, t.price = o.price ∧
      (s = OrderSide.Buy → t.buyer_order_id = tid ∧ t.seller_order_id = o.id) ∧
      (s = OrderSide.Sell → t.seller_order_id = tid ∧ t.buyer_order_id = o.id) := by
  obtain ⟨hq, o, ho, hp, hb, hs⟩ := h
  exact ⟨hq, o, mem_allResting_of_opp ho, hp, hb, hs⟩

theorem levelsOk_add_order {ob : OrderBook} (hok : LevelsOk ob) {o : Order}
    (hr : 0 < o.remaining_quantity) : LevelsOk (ob.add_order o) := by
  unfold OrderBook.add_order
  cases hs : o.side
  · exact ⟨ladderOk_alPush hok.1 hs hr, hok.2⟩
  · exact ⟨hok.1, ladderOk_alPush hok.2 hs hr⟩

theorem remove_order_levels (ob : OrderBook) (oid : String) (hok : LevelsOk ob) :
    LevelsOk (ob.remove_order oid).1 := by
  unfold OrderBook.remove_order
  split
  · exact hok
  · rename_i order heq
    dsimp only
    split
    · -- Buy side
      split
      · exact hok
      · rename_i orders hlv
        split
        · exact ⟨ladderOk_alRemove _ hok.1, hok.2⟩
        · rename_i hcond
          have hmem := alGet_mem hlv
          have hlev := hok.1 _ hmem
          refine ⟨ladderOk_alReplace hok.1 ?_ ?_, hok.2⟩
          · intro h
            exact hcond (by rw [h]; rfl)
          · exact fun o ho => hlev.2 o (List.mem_of_mem_filter ho)
    · -- Sell side
      split
      · exact hok
      · rename_i orders hlv
        split
        · exact ⟨hok.1, ladderOk_alRemove _ hok.2⟩
        · rename_i hcond
          have hmem := alGet_mem hlv
          have hlev := hok.2 _ hmem
          refine ⟨hok.1, ladderOk_alReplace hok.2 ?_ ?_⟩
          · intro h
            exact hcond (by rw [h]; rfl)
          · exact fun o ho => hlev.2 o (List.mem_of_mem_filter ho)

/-- `Matcher::place_order` preserves ladder well-formedness, and every
trade it emits is struck at positive quantity against a maker resting in
the pre-call book. -/
theorem place_order_levels (env : Env) (m : Matcher) (order : Order) (cnt : ℕ)
    (hok : LevelsOk m.orderbook) :
    LevelsOk ((m.place_order env order cnt).1.orderbook) ∧
    ∀ t ∈ (m.place_order env order cnt).2.1, 0 < t.quantity ∧
      ∃ o ∈ allResting m.orderbook, t.price = o.price ∧
        (order.side = OrderSide.Buy →
          t.buyer_order_id = order.id ∧ t.seller_order_id = o.id) ∧
        (order.side = OrderSide.Sell →
          t.seller_order_id = order.id ∧ t.buyer_order_id = o.id) := by
  unfold Matcher.place_order
  cases hty : order.order_type
  · -- Market
    obtain ⟨m1, m2, m3, m4, m5, m6, m7, m8⟩ :=
      matchMarket_inv env m.orderbook order cnt [] hok
    dsimp only
    split
    · refine ⟨m1, ?_⟩
      intro t ht
      rcases m8 t ht with h | h
      · exact absurd h (List.not_mem_nil t)
      · exact tradeFromLadder_allResting h
    · rename_i hnf
      refine ⟨levelsOk_add_order m1 (rem_pos_of_not_filled (by simpa using hnf)), ?_⟩
      intro t ht
      rcases m8 t ht with h | h
      · exact absurd h (List.not_mem_nil t)
      · exact tradeFromLadder_allResting h
  · -- Limit
    obtain ⟨m1, m2, m3, m4, m5, m6, m7, m8⟩ :=
      matchLimitGo_inv env (oppCount (m.orderbook.oppMap order.side) + 2)
        m.orderbook order cnt [] hok
    dsimp only
    split
    · refine ⟨m1, ?_⟩
      intro t ht
      rcases m8 t ht with h | h
      · exact absurd h (List.not_mem_nil t)
      · exact tradeFromLadder_allResting h
    · rename_i hnf
      refine ⟨levelsOk_add_order m1 (rem_pos_of_not_filled (by simpa using hnf)), ?_⟩
      intro t ht
      rcases m8 t ht with h | h
      · exact absurd h (List.not_mem_nil t)
      · exact tradeFromLadder_allResting h

theorem foldl_levels (env : Env) (ops : List MOp) :
    ∀ st : Matcher × ℕ, LevelsOk st.1.orderbook →
    LevelsOk ((ops.foldl (Matcher.apply_op env) st).1.orderbook) := by
  induction ops with
  | nil => exact fun st h => h
  | cons op rest ih =>
      intro st h
      rw [List.foldl_cons]
      apply ih
      cases op with
      | place o => exact (place_order_levels env st.1 o st.2 h).1
      | cancel i => exact remove_order_levels st.1.orderbook i h

theorem levelsOk_new (symbol : String) : LevelsOk (OrderBook.new symbol) :=
  ⟨fun e he => absurd he (List.not_mem_nil e), fun e he => absurd he (List.not_mem_nil e)⟩

theorem runOps_levels (env : Env) (symbol : String) (ops : List MOp) :
    LevelsOk ((runOps env symbol ops).1.orderbook) :=
  foldl_levels env ops (Matcher.new symbol, 0) (levelsOk_new symbol)

/-- C6: every trade emitted by the matcher has positive quantity and is
struck at the resting price of its maker — the passive-leg order resting
in the book at the moment of the match — for every sequence of
`place_order`/`cancel_order` calls on a fresh book whose input orders
have positive quantity. -/
theorem C6_trade_price_positive_quantity (env : Env) (symbol : String)
    (ops : List MOp) (order : Order)
    (hpos : ∀ o ∈ placedOrders ops, 0 < o.quantity)
    (hq : 0 < order.quantity) :
    ∀ t ∈ ((runOps env symbol ops).1.place_order env order
        (runOps env symbol ops).2).2.1,
      0 < t.quantity ∧ ∃ maker ∈ allResting (runOps env symbol ops).1.orderbook,
        t.price = maker.price ∧
        (order.side = OrderSide.Buy →
          t.buyer_order_id = order.id ∧ t.seller_order_id = maker.id) ∧
        (order.side = OrderSide.Sell →
          t.seller_order_id = order.id ∧ t.buyer_order_id = maker.id) :=
  fun t ht => (place_order_levels env (runOps env symbol ops).1 order
    (runOps env symbol ops).2 (runOps_levels env symbol ops)).2 t ht

/-- Witness for C6: on a book holding the ask 1@5 (id "A"), the limit
buy 1@5 (id "B") trades once, at quantity 1 and price 5 against "A". -/
theorem C6_witness :
    (∀ o ∈ placedOrders c6Ops, 0 < o.quantity) ∧ 0 < c6Buy.quantity ∧
    (0 < c6Trade.quantity ∧
      ∃ maker ∈ allResting (runOps envZero "S" c6Ops).1.orderbook,
        c6Trade.price = maker.price ∧
        (c6Buy.side = OrderSide.Buy →
          c6Trade.buyer_order_id = c6Buy.id ∧ c6Trade.seller_order_id = maker.id) ∧
        (c6Buy.side = OrderSide.Sell →
          c6Trade.seller_order_id = c6Buy.id ∧ c6Trade.buyer_order_id = maker.id)) :=
  ⟨by decide, by decide,
    C6_trade_price_positive_quantity envZero "S" c6Ops c6Buy (by decide) (by decide)
      c6Trade (by decide)⟩

/-! ## Book id-index invariants (C2) -/

theorem nodup_alPush_keys {κ α : Type} [DecidableEq κ] {m : List (κ × List α)}
    (k : κ) (v : α) (h : (m.map Prod.fst).Nodup) :
    ((alPush m k v).map Prod.fst).Nodup := by
  unfold alPush
  cases hg : alGet m k with
  | some vs =>
      rw [map_fst_alReplace]
      exact h
  | none =>
      have hk : k ∉ m.map Prod.fst := by
        rw [alGet_eq_none_iff] at hg
        intro hmem
        obtain ⟨e, he, hek⟩ := List.mem_map.mp hmem
        exact hg e he hek
      rw [List.map_append]
      refine h.append (List.nodup_singleton _) ?_
      intro a ha hb
      simp only [List.map_cons, List.map_nil, List.mem_singleton] at hb
      rw [hb] at ha
      exact hk ha

/-- Decomposing one ladder around the level at key `k`, with the fact
that orders outside the level rest at other prices (needs key uniqueness
and ladder well-formedness). -/
theorem levelOrders_decomp {s : OrderSide} {m : List (Dec × List Order)} {k : Dec}
    {orders : List Order} (hlad : LadderOk s m) (hkeys : (m.map Prod.fst).Nodup)
    (h : alGet m k = some orders) :
    ∃ A B, levelOrders m = A ++ orders ++ B ∧
      levelOrders (alRemove m k) = A ++ B ∧
      (∀ v', levelOrders (alReplace m k v') = A ++ v' ++ B) ∧
      ∀ o, o ∈ A ∨ o ∈ B → o.price ≠ k := by
  induction m with
  | nil => simp [alGet] at h
  | cons e rest ih =>
      obtain ⟨k0, w⟩ := e
      have hkeys' : (rest.map Prod.fst).Nodup := by
        rw [List.map_cons, List.nodup_cons] at hkeys
        exact hkeys.2
      have hlad' : LadderOk s rest := fun e he => hlad e (List.mem_cons_of_mem _ he)
      by_cases hk : k0 = k
      · subst hk
        simp [alGet] at h
        subst h
        refine ⟨[], levelOrders rest, by simp [levelOrders_cons], ?_, ?_, ?_⟩
        · simp only [alRemove, if_pos rfl]
          simp
        · intro v'
          simp only [alReplace, if_pos rfl]
          simp [levelOrders_cons]
        · intro o ho
          rcases ho with ho | ho
          · exact absurd ho (List.not_mem_nil o)
          · obtain ⟨e, he, hoe⟩ := exists_level_of_mem ho
            have hop := ((hlad e (List.mem_cons_of_mem _ he)).2 o hoe).1
            intro hpk
            rw [List.map_cons, List.nodup_cons] at hkeys
            exact hkeys.1 (by
              rw [← hpk, hop] at *
              exact hop ▸ hpk ▸ List.mem_map_of_mem Prod.fst he)
      · simp only [alGet, if_neg hk] at h
        obtain ⟨A, B, h1, h2, h3, h4⟩ := ih hlad' hkeys' h
        refine ⟨w ++ A, B, ?_, ?_, ?_, ?_⟩
        · rw [levelOrders_cons, h1]
          simp [List.append_assoc]
        · simp only [alRemove, if_neg hk]
          rw [levelOrders_cons, h2]
          simp [List.append_assoc]
        · intro v'
          simp only [alReplace, if_neg hk]
          rw [levelOrders_cons, h3 v']
          simp [List.append_assoc]
        · intro o ho
          rcases ho with ho | ho
          · rcases List.mem_append.mp ho with how | hoA
            · have hop := ((hlad (k0, w) (List.mem_cons_self _ _)).2 o how).1
              intro hpk
              exact hk ((hop.symm.trans hpk).symm ▸ rfl)
            · exact h4 o (Or.inl hoA)
          · exact h4 o (Or.inr ho)

/-- Transporting `BookInv` across a matching run: the run keeps the id
index and the taker side's ladder, and only removes or mutates makers on
the opposing ladder. -/
theorem bookInv_of_match {ob ob' : OrderBook} {used : List String} (s : OrderSide)
    (binv : BookInv ob used)
    (h1 : LevelsOk ob')
    (h2 : ob'.orders_by_id = ob.orders_by_id)
    (h4 : ob'.sideMap s = ob.sideMap s)
    (h5 : Transfer (levelOrders (ob.oppMap s)) (levelOrders (ob'.oppMap s)))
    (h6 : ∀ i, idCount (levelOrders (ob'.oppMap s)) i ≤
      idCount (levelOrders (ob.oppMap s)) i)
    (h7 : ((ob'.oppMap s).map Prod.fst).Sublist ((ob.oppMap s).map Prod.fst)) :
    BookInv ob' used := by
  cases s
  · simp only [OrderBook.sideMap, OrderBook.oppMap] at h4 h5 h6 h7
    refine ⟨h1.1, h1.2, ?_, ?_, ?_, ?_, ?_, ?_, ?_⟩
    · rw [h4]
      exact binv.bids_keys
    · exact h7.nodup binv.asks_keys
    · rw [h2]
      exact binv.byid_keys
    · intro o ho
      rw [h2]
      rw [allResting_eq] at ho
      rcases List.mem_append.mp ho with hbid | hask
      · rw [h4] at hbid
        exact binv.resting_byid o (by
          rw [allResting_eq]
          exact List.mem_append.mpr (Or.inl hbid))
      · obtain ⟨o₀, ho₀, e1, e2, e3⟩ := h5 o hask
        obtain ⟨w, hw, hwp, hws⟩ := binv.resting_byid o₀ (by
          rw [allResting_eq]
          exact List.mem_append.mpr (Or.inr ho₀))
        rw [e1]
        exact ⟨w, hw, hwp.trans e2.symm, hws.trans e3.symm⟩
    · intro i
      have hu := binv.resting_unique i
      rw [allResting_eq, idCount_append] at hu ⊢
      rw [h4]
      have h6i := h6 i
      omega
    · intro i hi
      have hu := binv.resting_used i hi
      rw [allResting_eq, idCount_append] at hu ⊢
      rw [h4]
      have h6i := h6 i
      omega
    · intro i hi
      rw [h2]
      exact binv.byid_used i hi
  · simp only [OrderBook.sideMap, OrderBook.oppMap] at h4 h5 h6 h7
    refine ⟨h1.1, h1.2, ?_, ?_, ?_, ?_, ?_, ?_, ?_⟩
    · exact h7.nodup binv.bids_keys
    · rw [h4]
      exact binv.asks_keys
    · rw [h2]
      exact binv.byid_keys
    · intro o ho
      rw [h2]
      rw [allResting_eq] at ho
      rcases List.mem_append.mp ho with hbid | hask
      · obtain ⟨o₀, ho₀, e1, e2, e3⟩ := h5 o hbid
        obtain ⟨w, hw, hwp, hws⟩ := binv.resting_byid o₀ (by
          rw [allResting_eq]
          exact List.mem_append.mpr (Or.inl ho₀))
        rw [e1]
        exact ⟨w, hw, hwp.trans e2.symm, hws.trans e3.symm⟩
      · rw [h4] at hask
        exact binv.resting_byid o (by
          rw [allResting_eq]
          exact List.mem_append.mpr (Or.inr hask))
    · intro i
      have hu := binv.resting_unique i
      rw [allResting_eq, idCount_append] at hu ⊢
      rw [h4]
      have h6i := h6 i
      omega
    · intro i hi
      have hu := binv.resting_used i hi
      rw [allResting_eq, idCount_append] at hu ⊢
      rw [h4]
      have h6i := h6 i
      omega
    · intro i hi
      rw [h2]
      exact binv.byid_used i hi

theorem idCount_nil (i : String) : idCount [] i = 0 := rfl

theorem add_order_orders_by_id (ob : OrderBook) (o : Order) :
    (ob.add_order o).orders_by_id = alInsert ob.orders_by_id o.id o := by
  unfold OrderBook.add_order
  cases o.side <;> rfl

theorem add_order_keys {ob : OrderBook} (o : Order)
    (hb : (ob.bids.map Prod.fst).Nodup) (ha : (ob.asks.map Prod.fst).Nodup) :
    ((ob.add_order o).bids.map Prod.fst).Nodup ∧
      ((ob.add_order o).asks.map Prod.fst).Nodup := by
  unfold OrderBook.add_order
  cases o.side
  · exact ⟨nodup_alPush_keys _ _ hb, ha⟩
  · exact ⟨hb, nodup_alPush_keys _ _ ha⟩

theorem allResting_add_order (ob : OrderBook) (o : Order) :
    ∃ A B, allResting ob = A ++ B ∧
      allResting (ob.add_order o) = A ++ [o] ++ B := by
  unfold OrderBook.add_order
  cases o.side
  · obtain ⟨A, B, h1, h2⟩ := levelOrders_alPush ob.bids o.price o
    refine ⟨A, B ++ levelOrders ob.asks, ?_, ?_⟩
    · rw [allResting_eq, h1]
      simp [List.append_assoc]
    · show levelOrders (alPush ob.bids o.price o) ++ levelOrders ob.asks = _
      rw [h2]
      simp [List.append_assoc]
  · obtain ⟨A, B, h1, h2⟩ := levelOrders_alPush ob.asks o.price o
    refine ⟨levelOrders ob.bids ++ A, B, ?_, ?_⟩
    · rw [allResting_eq, h1]
      simp [List.append_assoc]
    · show levelOrders ob.bids ++ levelOrders (alPush ob.asks o.price o) = _
      rw [h2]
      simp [List.append_assoc]

theorem bookInv_cons_used {ob : OrderBook} {used : List String} {x : String}
    (binv : BookInv ob used) : BookInv ob (x :: used) := by
  refine ⟨binv.bids_ok, binv.asks_ok, binv.bids_keys, binv.asks_keys,
    binv.byid_keys, binv.resting_byid, binv.resting_unique, ?_, ?_⟩
  · exact fun i hi => binv.resting_used i (fun h => hi (List.mem_cons_of_mem _ h))
  · exact fun i hi => binv.byid_used i (fun h => hi (List.mem_cons_of_mem _ h))

/-- Inserting a fresh-id order into the book preserves the id-index
invariant. -/
theorem bookInv_add_order {ob : OrderBook} {used : List String} {o : Order}
    (binv : BookInv ob used) (hrem : 0 < o.remaining_quantity)
    (hfresh : o.id ∉ used) : BookInv (ob.add_order o) (o.id :: used) := by
  have hcount0 : idCount (allResting ob) o.id = 0 := binv.resting_used _ hfresh
  have hres_ne : ∀ o' ∈ allResting ob, o'.id ≠ o.id := idCount_eq_zero hcount0
  obtain ⟨A, B, hAB, hAB'⟩ := allResting_add_order ob o
  have hkeys := add_order_keys o binv.bids_keys binv.asks_keys
  have hlv : LevelsOk (ob.add_order o) :=
    levelsOk_add_order ⟨binv.bids_ok, binv.asks_ok⟩ hrem
  refine ⟨hlv.1, hlv.2, hkeys.1, hkeys.2, ?_, ?_, ?_, ?_, ?_⟩
  · rw [add_order_orders_by_id]
    exact nodup_alInsert _ _ _ binv.byid_keys
  · intro o' ho'
    rw [add_order_orders_by_id]
    rw [hAB'] at ho'
    rcases List.mem_append.mp ho' with h | h
    · rcases List.mem_append.mp h with h | h
      · have hold : o' ∈ allResting ob := by
          rw [hAB]
          exact List.mem_append.mpr (Or.inl h)
        obtain ⟨w, hw, hwp, hws⟩ := binv.resting_byid o' hold
        rw [alGet_alInsert_ne _ o (Ne.symm (hres_ne o' hold))]
        exact ⟨w, hw, hwp, hws⟩
      · rw [List.mem_singleton] at h
        subst h
        rw [alGet_alInsert]
        exact ⟨o', rfl, rfl, rfl⟩
    · have hold : o' ∈ allResting ob := by
        rw [hAB]
        exact List.mem_append.mpr (Or.inr h)
      obtain ⟨w, hw, hwp, hws⟩ := binv.resting_byid o' hold
      rw [alGet_alInsert_ne _ o (Ne.symm (hres_ne o' hold))]
      exact ⟨w, hw, hwp, hws⟩
  · intro i
    have hu := binv.resting_unique i
    rw [hAB, idCount_append] at hu
    rw [hAB', idCount_append, idCount_append, idCount_cons, idCount_nil]
    by_cases hio : o.id = i
    · have h0 : idCount (allResting ob) i = 0 := hio ▸ hcount0
      rw [hAB, idCount_append] at h0
      rw [if_pos hio]
      omega
    · rw [if_neg hio]
      omega
  · intro i hi
    have h0 := binv.resting_used i (fun h => hi (List.mem_cons_of_mem _ h))
    rw [hAB, idCount_append] at h0
    rw [hAB', idCount_append, idCount_append, idCount_cons, idCount_nil]
    have hne : ¬(o.id = i) := fun h => hi (h ▸ List.mem_cons_self _ _)
    rw [if_neg hne]
    omega
  · intro i hi
    rw [add_order_orders_by_id]
    have hne : o.id ≠ i := fun h => hi (h ▸ List.mem_cons_self _ _)
    rw [alGet_alInsert_ne _ o hne]
    exact binv.byid_used i (fun h => hi (List.mem_cons_of_mem _ h))

theorem resting_price_of_id {ob : OrderBook} {used : List String} {oid : String}
    {order : Order} (binv : BookInv ob used)
    (heq : alGet ob.orders_by_id oid = some order) {o : Order}
    (ho : o ∈ allResting ob) (hid : o.id = oid) :
    o.price = order.price ∧ o.side = order.side := by
  obtain ⟨w, hw, hwp, hws⟩ := binv.resting_byid o ho
  rw [hid, heq] at hw
  obtain rfl : order = w := Option.some.inj hw
  exact ⟨hwp.symm, hws.symm⟩

/-- Assembling `BookInv` for the book left by a successful
`remove_order`: the id entry is gone, and the surviving resting orders
are old resting orders none of which carries the removed id. -/
theorem bookInv_assemble_remove {ob X : OrderBook} {used : List String} {oid : String}
    (binv : BookInv ob used)
    (h1 : LadderOk OrderSide.Buy X.bids) (h2 : LadderOk OrderSide.Sell X.asks)
    (h3 : (X.bids.map Prod.fst).Nodup) (h4 : (X.asks.map Prod.fst).Nodup)
    (h5 : X.orders_by_id = alRemove ob.orders_by_id oid)
    (h6 : ∀ o ∈ allResting X, o ∈ allResting ob ∧ o.id ≠ oid)
    (h7 : ∀ i, idCount (allResting X) i ≤ idCount (allResting ob) i) :
    BookInv X used := by
  refine ⟨h1, h2, h3, h4, ?_, ?_, ?_, ?_, ?_⟩
  · rw [h5]
    exact nodup_alRemove _ binv.byid_keys
  · intro o ho
    obtain ⟨hold, hne⟩ := h6 o ho
    obtain ⟨w, hw, hwp, hws⟩ := binv.resting_byid o hold
    rw [h5, alGet_alRemove_ne _ (Ne.symm hne)]
    exact ⟨w, hw, hwp, hws⟩
  · exact fun i => le_trans (h7 i) (binv.resting_unique i)
  · exact fun i hi => Nat.le_zero.mp (le_trans (h7 i) (le_of_eq (binv.resting_used i hi)))
  · intro i hi
    rw [h5]
    by_cases hio : i = oid
    · subst hio
      exact alGet_alRemove_self binv.byid_keys
    · rw [alGet_alRemove_ne _ (Ne.symm hio)]
      exact binv.byid_used i hi

/-- `OrderBook::remove_order` preserves the full book invariant. -/
theorem bookInv_remove_order {ob : OrderBook} {used : List String} (oid : String)
    (binv : BookInv ob used) : BookInv (ob.remove_order oid).1 used := by
  unfold OrderBook.remove_order
  split
  · exact binv
  · rename_i order heq
    dsimp only
    split
    · -- resting side Buy: the bid ladder is edited
      rename_i hsde
      split
      · rename_i hb
        refine bookInv_assemble_remove binv binv.bids_ok binv.asks_ok binv.bids_keys
          binv.asks_keys rfl ?_ (fun i => le_refl _)
        intro o ho
        refine ⟨ho, ?_⟩
        intro hid
        obtain ⟨hp, hs⟩ := resting_price_of_id binv heq ho hid
        rcases List.mem_append.mp ho with h | h
        · have hkey := price_key_of_mem_levelOrders binv.bids_ok h
          rw [hp] at hkey
          rw [alGet_eq_none_iff] at hb
          obtain ⟨e, he, hek⟩ := List.mem_map.mp hkey
          exact hb e he hek
        · have hside := side_of_mem_levelOrders binv.asks_ok h
          rw [hsde] at hs
          rw [hside] at hs
          exact absurd hs (by decide)
      · rename_i orders hb
        obtain ⟨A, B, hAB, hrm, hrp, hpr⟩ :=
          levelOrders_decomp binv.bids_ok binv.bids_keys hb
        have hAB_ne : ∀ o', o' ∈ A ∨ o' ∈ B → o'.id ≠ oid := by
          intro o' hmem hid
          have hold : o' ∈ allResting ob := by
            rw [allResting_eq, hAB]
            simp only [List.mem_append]
            tauto
          obtain ⟨hp, hs⟩ := resting_price_of_id binv heq hold hid
          exact hpr o' hmem hp
        have hask_ne : ∀ o' ∈ levelOrders ob.asks, o'.id ≠ oid := by
          intro o' h hid
          have hold : o' ∈ allResting ob := by
            rw [allResting_eq]
            exact List.mem_append.mpr (Or.inr h)
          obtain ⟨hp, hs⟩ := resting_price_of_id binv heq hold hid
          have hside := side_of_mem_levelOrders binv.asks_ok h
          rw [hsde] at hs
          rw [hside] at hs
          exact absurd hs (by decide)
        split
        · refine bookInv_assemble_remove binv (ladderOk_alRemove _ binv.bids_ok)
            binv.asks_ok (nodup_alRemove _ binv.bids_keys) binv.asks_keys rfl ?_ ?_
          · intro o ho
            rcases List.mem_append.mp ho with h | h
            · have h' : o ∈ levelOrders (alRemove ob.bids order.price) := h
              rw [hrm] at h'
              constructor
              · rw [allResting_eq, hAB]
                simp only [List.mem_append] at h' ⊢
                tauto
              · exact hAB_ne o (List.mem_append.mp h')
            · have h' : o ∈ levelOrders ob.asks := h
              constructor
              · rw [allResting_eq]
                exact List.mem_append.mpr (Or.inr h')
              · exact hask_ne o h'
          · intro i
            show idCount (levelOrders (alRemove ob.bids order.price) ++
              levelOrders ob.asks) i ≤ idCount (allResting ob) i
            rw [hrm, allResting_eq, hAB]
            simp only [idCount_append]
            omega
        · rename_i hcond
          have hfil_ne : orders.filter (fun o => decide (o.id ≠ oid)) ≠ [] :=
            fun h => hcond (by rw [h]; rfl)
          have hmemlev := alGet_mem hb
          have hlev := binv.bids_ok _ hmemlev
          refine bookInv_assemble_remove binv
            (ladderOk_alReplace binv.bids_ok hfil_ne
              (fun o ho => hlev.2 o (List.mem_of_mem_filter ho)))
            binv.asks_ok ?_ binv.asks_keys rfl ?_ ?_
          · rw [map_fst_alReplace]
            exact binv.bids_keys
          · intro o ho
            rcases List.mem_append.mp ho with h | h
            · have h' : o ∈ levelOrders (alReplace ob.bids order.price
                  (orders.filter (fun o => decide (o.id ≠ oid)))) := h
              rw [hrp] at h'
              rcases List.mem_append.mp h' with h2 | h2
              · rcases List.mem_append.mp h2 with h3 | h3
                · refine ⟨?_, hAB_ne o (Or.inl h3)⟩
                  rw [allResting_eq, hAB]
                  simp only [List.mem_append]
                  tauto
                · have ho2 : o ∈ orders := List.mem_of_mem_filter h3
                  have hne : o.id ≠ oid := by
                    have hp := List.of_mem_filter h3
                    simpa using hp
                  refine ⟨?_, hne⟩
                  rw [allResting_eq, hAB]
                  simp only [List.mem_append]
                  tauto
              · refine ⟨?_, hAB_ne o (Or.inr h2)⟩
                rw [allResting_eq, hAB]
                simp only [List.mem_append]
                tauto
            · refine ⟨?_, hask_ne o h⟩
              rw [allResting_eq]
              exact List.mem_append.mpr (Or.inr h)
          · intro i
            show idCount (levelOrders (alReplace ob.bids order.price
              (orders.filter (fun o => decide (o.id ≠ oid)))) ++
              levelOrders ob.asks) i ≤ idCount (allResting ob) i
            rw [hrp, allResting_eq, hAB]
            simp only [idCount_append]
            have hf := idCount_le_of_sublist
              (@List.filter_sublist Order (fun o => decide (o.id ≠ oid)) orders) i
            omega
    · -- resting side Sell: the ask ladder is edited
      rename_i hsde
      split
      · rename_i hb
        refine bookInv_assemble_remove binv binv.bids_ok binv.asks_ok binv.bids_keys
          binv.asks_keys rfl ?_ (fun i => le_refl _)
        intro o ho
        refine ⟨ho, ?_⟩
        intro hid
        obtain ⟨hp, hs⟩ := resting_price_of_id binv heq ho hid
        rcases List.mem_append.mp ho with h | h
        · have hside := side_of_mem_levelOrders binv.bids_ok h
          rw [hsde] at hs
          rw [hside] at hs
          exact absurd hs (by decide)
        · have hkey := price_key_of_mem_levelOrders binv.asks_ok h
          rw [hp] at hkey
          rw [alGet_eq_none_iff] at hb
          obtain ⟨e, he, hek⟩ := List.mem_map.mp hkey
          exact hb e he hek
      · rename_i orders hb
        obtain ⟨A, B, hAB, hrm, hrp, hpr⟩ :=
          levelOrders_decomp binv.asks_ok binv.asks_keys hb
        have hAB_ne : ∀ o', o' ∈ A ∨ o' ∈ B → o'.id ≠ oid := by
          intro o' hmem hid
          have hold : o' ∈ allResting ob := by
            rw [allResting_eq, hAB]
            simp only [List.mem_append]
            tauto
          obtain ⟨hp, hs⟩ := resting_price_of_id binv heq hold hid
          exact hpr o' hmem hp
        have hbid_ne : ∀ o' ∈ levelOrders ob.bids, o'.id ≠ oid := by
          intro o' h hid
          have hold : o' ∈ allResting ob := by
            rw [allResting_eq]
            exact List.mem_append.mpr (Or.inl h)
          obtain ⟨hp, hs⟩ := resting_price_of_id binv heq hold hid
          have hside := side_of_mem_levelOrders binv.bids_ok h
          rw [hsde] at hs
          rw [hside] at hs
          exact absurd hs (by decide)
        split
        · refine bookInv_assemble_remove binv binv.bids_ok
            (ladderOk_alRemove _ binv.asks_ok) binv.bids_keys
            (nodup_alRemove _ binv.asks_keys) rfl ?_ ?_
          · intro o ho
            rcases List.mem_append.mp ho with h | h
            · have h' : o ∈ levelOrders ob.bids := h
              constructor
              · rw [allResting_eq]
                exact List.mem_append.mpr (Or.inl h')
              · exact hbid_ne o h'
            · have h' : o ∈ levelOrders (alRemove ob.asks order.price) := h
              rw [hrm] at h'
              constructor
              · rw [allResting_eq, hAB]
                simp only [List.mem_append] at h' ⊢
                tauto
              · exact hAB_ne o (List.mem_append.mp h')
          · intro i
            show idCount (levelOrders ob.bids ++
              levelOrders (alRemove ob.asks order.price)) i ≤ idCount (allResting ob) i
            rw [hrm, allResting_eq, hAB]
            simp only [idCount_append]
            omega
        · rename_i hcond
          have hfil_ne : orders.filter (fun o => decide (o.id ≠ oid)) ≠ [] :=
            fun h => hcond (by rw [h]; rfl)
          have hmemlev := alGet_mem hb
          have hlev := binv.asks_ok _ hmemlev
          refine bookInv_assemble_remove binv binv.bids_ok
            (ladderOk_alReplace binv.asks_ok hfil_ne
              (fun o ho => hlev.2 o (List.mem_of_mem_filter ho)))
            binv.bids_keys ?_ rfl ?_ ?_
          · rw [map_fst_alReplace]
            exact binv.asks_keys
          · intro o ho
            rcases List.mem_append.mp ho with h | h
            · refine ⟨?_, hbid_ne o h⟩
              rw [allResting_eq]
              exact List.mem_append.mpr (Or.inl h)
            · have h' : o ∈ levelOrders (alReplace ob.asks order.price
                  (orders.filter (fun o => decide (o.id ≠ oid)))) := h
              rw [hrp] at h'
              rcases List.mem_append.mp h' with h2 | h2
              · rcases List.mem_append.mp h2 with h3 | h3
                · refine ⟨?_, hAB_ne o (Or.inl h3)⟩
                  rw [allResting_eq, hAB]
                  simp only [List.mem_append]
                  tauto
                · have ho2 : o ∈ orders := List.mem_of_mem_filter h3
                  have hne : o.id ≠ oid := by
                    have hp := List.of_mem_filter h3
                    simpa using hp
                  refine ⟨?_, hne⟩
                  rw [allResting_eq, hAB]
                  simp only [List.mem_append]
                  tauto
              · refine ⟨?_, hAB_ne o (Or.inr h2)⟩
                rw [allResting_eq, hAB]
                simp only [List.mem_append]
                tauto
          · intro i
            show idCount (levelOrders ob.bids ++
              levelOrders (alReplace ob.asks order.price
                (orders.filter (fun o => decide (o.id ≠ oid))))) i ≤
              idCount (allResting ob) i
            rw [hrp, allResting_eq, hAB]
            simp only [idCount_append]
            have hf := idCount_le_of_sublist
              (@List.filter_sublist Order (fun o => decide (o.id ≠ oid)) orders) i
            omega

/-- `Matcher::place_order` on a fresh-id order preserves the full book
invariant, adding the order's id to the used set. -/
theorem place_order_bookInv (env : Env) {m : Matcher} {used : List String}
    (order : Order) (cnt : ℕ) (binv : BookInv m.orderbook used)
    (hfresh : order.id ∉ used) :
    BookInv (m.place_order env order cnt).1.orderbook (order.id :: used) := by
  unfold Matcher.place_order
  cases hty : order.order_type
  · obtain ⟨m1, m2, m3, m4, m5, m6, m7, m8⟩ :=
      matchMarket_inv env m.orderbook order cnt [] ⟨binv.bids_ok, binv.asks_ok⟩
    obtain ⟨t1, t2, t3, t4⟩ := matchMarket_taker env m.orderbook order cnt []
    have binv1 : BookInv (matchMarket env m.orderbook order cnt []).1 used :=
      bookInv_of_match order.side binv m1 m2 m4 m5 m6 m7
    dsimp only
    split
    · exact bookInv_cons_used binv1
    · rename_i hnf
      have hrem : 0 <
          (matchMarket env m.orderbook order cnt []).2.1.remaining_quantity :=
        rem_pos_of_not_filled (by simpa using hnf)
      have hfr : (matchMarket env m.orderbook order cnt []).2.1.id ∉ used := by
        rw [t1]
        exact hfresh
      have hres := bookInv_add_order binv1 hrem hfr
      rw [t1] at hres
      exact hres
  · obtain ⟨m1, m2, m3, m4, m5, m6, m7, m8⟩ :=
      matchLimitGo_inv env (oppCount (m.orderbook.oppMap order.side) + 2)
        m.orderbook order cnt [] ⟨binv.bids_ok, binv.asks_ok⟩
    obtain ⟨t1, t2, t3, t4⟩ := matchLimitGo_taker env
      (oppCount (m.orderbook.oppMap order.side) + 2) m.orderbook order cnt []
    have binv1 : BookInv (matchLimitGo env
        (oppCount (m.orderbook.oppMap order.side) + 2)
        m.orderbook order cnt []).1 used :=
      bookInv_of_match order.side binv m1 m2 m4 m5 m6 m7
    dsimp only
    split
    · exact bookInv_cons_used binv1
    · rename_i hnf
      have hrem : 0 < (matchLimitGo env
          (oppCount (m.orderbook.oppMap order.side) + 2)
          m.orderbook order cnt []).2.1.remaining_quantity :=
        rem_pos_of_not_filled (by simpa using hnf)
      have hfr : (matchLimitGo env (oppCount (m.orderbook.oppMap order.side) + 2)
          m.orderbook order cnt []).2.1.id ∉ used := by
        rw [t1]
        exact hfresh
      have hres := bookInv_add_order binv1 hrem hfr
      rw [t1] at hres
      exact hres

theorem cancel_order_bookInv {m : Matcher} {used : List String} (oid : String)
    (binv : BookInv m.orderbook used) :
    BookInv (m.cancel_order oid).1.orderbook used :=
  bookInv_remove_order oid binv

theorem bookInv_new (symbol : String) : BookInv (OrderBook.new symbol) [] := by
  refine ⟨?_, ?_, ?_, ?_, ?_, ?_, ?_, ?_, ?_⟩
  · exact fun e he => absurd he (List.not_mem_nil e)
  · exact fun e he => absurd he (List.not_mem_nil e)
  · simp [OrderBook.new]
  · simp [OrderBook.new]
  · simp [OrderBook.new]
  · exact fun o ho => absurd ho (List.not_mem_nil o)
  · exact fun i => Nat.zero_le _
  · exact fun i _ => rfl
  · exact fun i _ => rfl

theorem foldl_bookInv (env : Env) (ops : List MOp) :
    ∀ (st : Matcher × ℕ) (used : List String), BookInv st.1.orderbook used →
    (∀ i ∈ placedIds ops, i ∉ used) → (placedIds ops).Nodup →
    ∃ used', BookInv ((ops.foldl (Matcher.apply_op env) st).1.orderbook) used' := by
  induction ops with
  | nil => exact fun st used h _ _ => ⟨used, h⟩
  | cons op rest ih =>
      intro st used h hdisj hnd
      rw [List.foldl_cons]
      cases op with
      | place o =>
          have hfresh : o.id ∉ used :=
            hdisj o.id (List.mem_cons_self _ _)
          have hnd' : (placedIds rest).Nodup ∧ o.id ∉ placedIds rest := by
            have hc : (o.id :: placedIds rest).Nodup := hnd
            rw [List.nodup_cons] at hc
            exact ⟨hc.2, hc.1⟩
          refine ih _ (o.id :: used) (place_order_bookInv env o st.2 h hfresh)
            ?_ hnd'.1
          intro i hi hmem
          rcases List.mem_cons.mp hmem with h1 | h1
          · exact hnd'.2 (h1 ▸ hi)
          · exact hdisj i (List.mem_cons_of_mem _ hi) h1
      | cancel i =>
          exact ih _ used (cancel_order_bookInv i h) hdisj hnd

theorem runOps_bookInv (env : Env) (symbol : String) (ops : List MOp)
    (hnd : (placedIds ops).Nodup) :
    ∃ used', BookInv ((runOps env symbol ops).1.orderbook) used' :=
  foldl_bookInv env ops (Matcher.new symbol, 0) [] (bookInv_new symbol)
    (fun i _ hmem => absurd hmem (List.not_mem_nil i)) hnd

/-- C2 amended: after any sequence of `place_order`/`cancel_order` calls
on a fresh book whose placed orders carry pairwise-distinct ids, every
price level present in bids or asks holds a non-empty vector of orders
carrying the level's price; and every id recorded in `orders_by_id`
corresponds to AT MOST one resting order, which, when it exists, rests at
the price recorded for that id.  (The original claim's "exactly one"
fails: fully filled makers stay in `orders_by_id` while resting nowhere,
and duplicate placed ids can leave two resting orders under one
recorded id.) -/
theorem C2_amended (env : Env) (symbol : String) (ops : List MOp)
    (hnd : (placedIds ops).Nodup) :
    (∀ e ∈ (runOps env symbol ops).1.orderbook.bids ++
        (runOps env symbol ops).1.orderbook.asks,
      e.2 ≠ [] ∧ ∀ o ∈ e.2, o.price = e.1) ∧
    ∀ id e, alGet (runOps env symbol ops).1.orderbook.orders_by_id id = some e →
      (restingWithId (runOps env symbol ops).1.orderbook id).length ≤ 1 ∧
      ∀ o ∈ restingWithId (runOps env symbol ops).1.orderbook id,
        o.price = e.price := by
  obtain ⟨used, binv⟩ := runOps_bookInv env symbol ops hnd
  constructor
  · intro e he
    rcases List.mem_append.mp he with h | h
    · obtain ⟨h1, h2⟩ := binv.bids_ok e h
      exact ⟨h1, fun o ho => (h2 o ho).1⟩
    · obtain ⟨h1, h2⟩ := binv.asks_ok e h
      exact ⟨h1, fun o ho => (h2 o ho).1⟩
  · intro id e hget
    constructor
    · have hlen : (restingWithId (runOps env symbol ops).1.orderbook id).length =
          idCount (allResting (runOps env symbol ops).1.orderbook) id := rfl
      rw [hlen]
      exact binv.resting_unique id
    · intro o ho
      have hmem : o ∈ allResting (runOps env symbol ops).1.orderbook :=
        List.mem_of_mem_filter ho
      have hid : o.id = id := by
        have hp := List.of_mem_filter ho
        simpa using hp
      exact (resting_price_of_id binv hget hmem hid).1

/-- Witness for the amended C2: placing a sell 1@5 (id "A") and a buy
1@4 (id "B") on a fresh book satisfies the amended invariant. -/
theorem C2_amended_witness :
    (placedIds c2WOps).Nodup ∧
    ((∀ e ∈ (runOps envZero "S" c2WOps).1.orderbook.bids ++
        (runOps envZero "S" c2WOps).1.orderbook.asks,
      e.2 ≠ [] ∧ ∀ o ∈ e.2, o.price = e.1) ∧
    ∀ id e, alGet (runOps envZero "S" c2WOps).1.orderbook.orders_by_id id = some e →
      (restingWithId (runOps envZero "S" c2WOps).1.orderbook id).length ≤ 1 ∧
      ∀ o ∈ restingWithId (runOps envZero "S" c2WOps).1.orderbook id,
        o.price = e.price) :=
  ⟨by decide, C2_amended envZero "S" c2WOps (by decide)⟩

end RaftMatch
